import Mathlib

/-!
# xgettext-go: call-site scanner and literal evaluator

A shallow embedding of `cmd/xgettext-go/pkg.go`.

* Go strings are byte sequences; `len` and slice expressions count bytes.
* A run-time panic is an `Except.error` carrying the kind of the panic.
* The syntax tree keeps the node kinds the scanner tells apart
  (`*ast.CallExpr`, `*ast.SelectorExpr`, `*ast.BasicLit`, `*ast.BinaryExpr`,
  `*ast.Ident`); every other node kind is an `Other` node that lists its
  children in the order `ast.Walk` visits them.
-/

namespace XGettext

/-- A Go string: an immutable sequence of bytes. -/
abbrev GoString := List UInt8

/-- The UTF-8 bytes of a string constant. -/
def bytes (s : String) : GoString := s.toList.flatMap String.utf8EncodeChar

/-- The kinds of run-time panic the scanner can raise. -/
inductive Fault where
  /-- The explicit `panic(fmt.Sprintf("unknown type: %+v", val))`. -/
  | unknownType
  /-- Slice bounds out of range. -/
  | sliceBounds
  /-- Index out of range. -/
  | indexOutOfRange
  /-- Nil pointer dereference. -/
  | nilDereference
  deriving DecidableEq, Repr

/-- The slice expression `s[lo:hi]` on a string: it panics unless
`0 ≤ lo ≤ hi ≤ len(s)`. -/
def slice (s : GoString) (lo hi : Int) : Except Fault GoString :=
  if 0 ≤ lo ∧ lo ≤ hi ∧ hi ≤ (s.length : Int) then
    .ok ((s.drop lo.toNat).take (hi.toNat - lo.toNat))
  else
    .error .sliceBounds

/-- The index expression `xs[i]` on a slice. -/
def index {α : Type} (xs : List α) (i : Nat) : Except Fault α :=
  match xs.get? i with
  | some a => .ok a
  | none => .error .indexOutOfRange

/-! ## Package `strings` -/

namespace strings

/-- The UTF-8 encodings of the code points on which `unicode.IsSpace` holds:
the ASCII spaces, U+0085, U+00A0, U+1680, U+2000..U+200A, U+2028, U+2029,
U+202F, U+205F and U+3000. -/
def spaceEncodings : List GoString :=
  [[0x09], [0x0A], [0x0B], [0x0C], [0x0D], [0x20],
   [0xC2, 0x85], [0xC2, 0xA0], [0xE1, 0x9A, 0x80],
   [0xE2, 0x80, 0x80], [0xE2, 0x80, 0x81], [0xE2, 0x80, 0x82], [0xE2, 0x80, 0x83],
   [0xE2, 0x80, 0x84], [0xE2, 0x80, 0x85], [0xE2, 0x80, 0x86], [0xE2, 0x80, 0x87],
   [0xE2, 0x80, 0x88], [0xE2, 0x80, 0x89], [0xE2, 0x80, 0x8A],
   [0xE2, 0x80, 0xA8], [0xE2, 0x80, 0xA9], [0xE2, 0x80, 0xAF],
   [0xE2, 0x81, 0x9F], [0xE3, 0x80, 0x80]]

/-- Drop leading occurrences of the given byte sequences, at most `fuel` of them. -/
def stripLeading (encs : List GoString) : Nat → GoString → GoString
  | 0, s => s
  | fuel + 1, s =>
    match encs.find? (fun e => e.isPrefixOf s) with
    | some e => stripLeading encs fuel (s.drop e.length)
    | none => s

/-- The function `strings.TrimLeftFunc(s, unicode.IsSpace)`: the decoder yields a
space exactly where the remaining bytes start with the encoding of one. -/
def trimLeftSpace (s : GoString) : GoString :=
  stripLeading spaceEncodings s.length s

/-- The function `strings.TrimRightFunc(s, unicode.IsSpace)`: decoding backwards
yields a space exactly where the bytes end with the encoding of one. -/
def trimRightSpace (s : GoString) : GoString :=
  (stripLeading (spaceEncodings.map List.reverse) s.length s.reverse).reverse

/-- The function `strings.TrimSpace`. -/
def TrimSpace (s : GoString) : GoString :=
  trimRightSpace (trimLeftSpace s)

/-- The function `strings.Trim(s, cutset)` for a cutset of ASCII bytes, the only
kind of cutset the scanner passes: the bytes of the cutset are removed at the right
of the string, then at its left. -/
def Trim (s cutset : GoString) : GoString :=
  if s = [] ∨ cutset = [] then s
  else ((s.rdropWhile (fun b => cutset.contains b)).dropWhile (fun b => cutset.contains b))

end strings

/-! ## Package `path/filepath` -/

namespace filepath

/-- The path separator `/`. -/
def Separator : UInt8 := 0x2F

/-- The function `filepath.Base` on a system whose separator is `/` and whose
paths have no volume name: the last element of the path, after trailing
separators are removed; `.` for the empty path, `/` for a path of separators only. -/
def Base (path : GoString) : GoString :=
  if path = [] then [0x2E]
  else
    let path := path.rdropWhile (fun b => b == Separator)
    let path := (path.reverse.takeWhile (fun b => b != Separator)).reverse
    if path = [] then [Separator] else path

end filepath

/-! ## Package `go/token` -/

namespace token

/-- A compact source position, `token.Pos`. -/
abbrev Pos := Nat

/-- The literal kinds and the operators of `token.Token`. -/
inductive Token where
  | ILLEGAL | IDENT | INT | FLOAT | IMAG | CHAR | STRING
  | ADD | SUB | MUL | QUO | REM
  | AND | OR | XOR | SHL | SHR | AND_NOT
  | LAND | LOR | ARROW
  | EQL | LSS | GTR | NEQ | LEQ | GEQ
  deriving DecidableEq, Repr

/-- A resolved source position, `token.Position`. -/
structure Position where
  Filename : GoString
  Offset : Nat
  Line : Nat
  Column : Nat
  deriving DecidableEq, Repr

/-- A file set, seen through its one method the scanner uses: the conversion of a
`Pos` to a `Position`. -/
structure FileSet where
  Position : Pos → Position

end token

/-! ## Package `go/ast` -/

namespace ast

/-- Syntax tree nodes. `Other` stands for every node kind that the scanner and the
evaluator only reach in a default branch (files, declarations, statements,
identifiers aside, parenthesised, unary and composite expressions, ...); its
children are listed in the order of `ast.Walk`. -/
inductive Node where
  | Ident (NamePos : token.Pos) (Name : GoString)
  | BasicLit (ValuePos : token.Pos) (Kind : token.Token) (Value : GoString)
  | BinaryExpr (X : Node) (OpPos : token.Pos) (Op : token.Token) (Y : Node)
  | SelectorExpr (X : Node) (SelPos : token.Pos) (SelName : GoString)
  | CallExpr (Fun : Node) (Args : List Node)
  | Other (pos : token.Pos) (children : List Node)

/-- The method `Pos()` of a node: the position of its first character. -/
def Node.Pos : Node → token.Pos
  | .Ident namePos _ => namePos
  | .BasicLit valuePos _ _ => valuePos
  | .BinaryExpr x _ _ _ => x.Pos
  | .SelectorExpr x _ _ => x.Pos
  | .CallExpr fn _ => fn.Pos
  | .Other pos _ => pos

/-- The fields of an `*ast.CallExpr` that the scanner reads. -/
structure CallExpr where
  Fun : Node
  Args : List Node

/-- The method `Pos()` of a call expression. -/
def CallExpr.Pos (x : CallExpr) : token.Pos := x.Fun.Pos

mutual
/-- The function `ast.Inspect` with a callback that threads a state and may panic:
depth-first, the node before its children, the children skipped when the callback
returns false. (The closing call on nil is left out: the scanner ignores it.) -/
def Inspect {ε σ : Type} (f : σ → Node → Except ε (σ × Bool)) :
    Node → σ → Except ε σ
  | .Ident namePos name, s => do
    let r ← f s (.Ident namePos name)
    pure r.1
  | .BasicLit valuePos kind value, s => do
    let r ← f s (.BasicLit valuePos kind value)
    pure r.1
  | .BinaryExpr x opPos op y, s => do
    let r ← f s (.BinaryExpr x opPos op y)
    if r.2 then
      let s ← Inspect f x r.1
      Inspect f y s
    else pure r.1
  | .SelectorExpr x selPos selName, s => do
    let r ← f s (.SelectorExpr x selPos selName)
    if r.2 then
      let s ← Inspect f x r.1
      let r ← f s (.Ident selPos selName)
      pure r.1
    else pure r.1
  | .CallExpr fn args, s => do
    let r ← f s (.CallExpr fn args)
    if r.2 then
      let s ← Inspect f fn r.1
      InspectList f args s
    else pure r.1
  | .Other pos children, s => do
    let r ← f s (.Other pos children)
    if r.2 then InspectList f children r.1 else pure r.1
/-- Inspect the nodes of a list one after the other. -/
def InspectList {ε σ : Type} (f : σ → Node → Except ε (σ × Bool)) :
    List Node → σ → Except ε σ
  | [], s => pure s
  | n :: ns, s => do
    let s ← Inspect f n s
    InspectList f ns s
end

end ast

/-! ## Package `time` -/

namespace time

/-- The fields of an instant that the creation date shows: the civil date and the
time of day in the local zone, and the zone offset in seconds east of UTC. -/
structure Time where
  Year : Int
  Month : Nat
  Day : Nat
  Hour : Nat
  Minute : Nat
  Offset : Int

/-- The helper `appendInt` of package `time`: the decimal digits of `x`, padded with
zeros to `width` digits, after a minus sign when `x` is negative. -/
def appendInt (x : Int) (width : Nat) : GoString :=
  let digits : GoString := (Nat.toDigits 10 x.natAbs).map (fun c => c.toNat.toUInt8)
  let padded := List.replicate (width - digits.length) 0x30 ++ digits
  if x < 0 then 0x2D :: padded else padded

/-- The method `Format` at the layout `2006-01-02 15:04-0700`. -/
def Time.Format (t : Time) : GoString :=
  let zone : Int := Int.tdiv t.Offset 60
  let sign : UInt8 := if zone < 0 then 0x2D else 0x2B
  let zone : Int := if zone < 0 then -zone else zone
  appendInt t.Year 4 ++ [0x2D] ++ appendInt t.Month 2 ++ [0x2D] ++ appendInt t.Day 2
    ++ [0x20] ++ appendInt t.Hour 2 ++ [0x3A] ++ appendInt t.Minute 2
    ++ [sign] ++ appendInt (Int.tdiv zone 60) 2 ++ appendInt (Int.tmod zone 60) 2

end time

/-! ## Package `po` -/

namespace po

/-- Modelled from the spec: the record type `po.Comment` is declared outside the
scanner's source file; these are the fields the scanner sets (the translator
comment of the header, and the reference file, reference line and flag lists of a
message entry). -/
structure Comment where
  TranslatorComment : GoString := []
  ReferenceFile : List GoString := []
  ReferenceLine : List Int := []
  Flags : List GoString := []
  deriving DecidableEq, Repr

/-- Modelled from the spec: the record type `po.Message` is declared outside the
scanner's source file; a message entry has its comments, its context and its id. -/
structure Message where
  Comment : Comment := {}
  MsgContext : GoString := []
  MsgId : GoString := []
  deriving DecidableEq, Repr

/-- Modelled from the spec: the record type `po.Header` is declared outside the
scanner's source file; these are the header fields the scanner sets. -/
structure Header where
  Comment : Comment := {}
  ProjectIdVersion : GoString := []
  POTCreationDate : GoString := []
  LanguageTeam : GoString := []
  Language : GoString := []
  MimeVersion : GoString := []
  ContentType : GoString := []
  ContentTransferEncoding : GoString := []
  deriving DecidableEq, Repr

/-- Modelled from the spec: the record type `po.File` is declared outside the
scanner's source file; a catalog is one header and an ordered list of entries. -/
structure File where
  MimeHeader : Header := {}
  Messages : List Message := []
  deriving DecidableEq, Repr

end po

/-! ## The scanner -/

/-- The struct `Package`. The type-checker results are left out: the scanner never
reads them. `potFile` is a pointer, nil until `GenPotFile` sets it. -/
structure Package where
  path : GoString
  pkgpath : GoString
  pkgname : GoString
  filesAbspath : List GoString
  fset : token.FileSet
  astFiles : List ast.Node
  potFile : Option po.File

/-- The method `evalStringValue`: the text of a literal with spaces, quotes and
newlines trimmed from both ends; for `x + y` the text of `x` without its last byte
followed by the text of `y` without its first byte; the empty string for any other
binary operator; a panic for any other kind of node. -/
def Package.evalStringValue (p : Package) : ast.Node → Except Fault GoString
  | .BasicLit _ _ value =>
    let s := value
    let s := strings.TrimSpace s
    let s := strings.Trim s (bytes ("\"") ++ bytes ("\n"))
    .ok s
  | .BinaryExpr x _ op y =>
    if op ≠ token.Token.ADD then .ok []
    else do
      let left ← p.evalStringValue x
      let right ← p.evalStringValue y
      let l ← slice left 0 ((left.length : Int) - 1)
      let r ← slice right 1 (right.length : Int)
      .ok (l ++ r)
  | _ => .error .unknownType

/-- A panic of the scanner: its kind, and the package as it is when the panic is
raised (what the scanner changed before it stays changed). -/
structure Panic where
  fault : Fault
  state : Package

/-- Run a computation that does not touch the package: its panic is raised in the
package as it is. -/
def Package.inState {α : Type} (p : Package) (r : Except Fault α) : Except Panic α :=
  match r with
  | .ok a => .ok a
  | .error e => .error { fault := e, state := p }

/-- The entry that both implemented cases of `processGettext` build. -/
def Package.newMessage (p : Package) (pos : token.Position) (msgctxt msgid : GoString) :
    po.Message :=
  { Comment :=
      { ReferenceFile := [p.pkgpath ++ bytes ("/") ++ filepath.Base pos.Filename]
        ReferenceLine := [(pos.Line : Int)]
        Flags := [bytes ("go-format")] }
    MsgContext := msgctxt
    MsgId := msgid }

/-- The statement `p.potFile.Messages = append(p.potFile.Messages, m)`. -/
def Package.appendMessage (p : Package) (m : po.Message) : Except Panic Package :=
  match p.potFile with
  | none => .error { fault := .nilDereference, state := p }
  | some f => .ok { p with potFile := some { f with Messages := f.Messages ++ [m] } }

/-- The method `processGettext`: a switch on the name of the called function. The
arguments are evaluated, in order, before the entry is appended. -/
def Package.processGettext (p : Package) (x : ast.CallExpr) (fnName : GoString) :
    Except Panic Package :=
  if fnName = bytes ("Gettext") then do
    let pos := p.fset.Position x.Pos
    let arg0 ← p.inState (index x.Args 0)
    let msgid ← p.inState (p.evalStringValue arg0)
    p.appendMessage (p.newMessage pos [] msgid)
  else if fnName = bytes ("PGettext") then do
    let pos := p.fset.Position x.Pos
    let arg0 ← p.inState (index x.Args 0)
    let msgctxt ← p.inState (p.evalStringValue arg0)
    let arg1 ← p.inState (index x.Args 1)
    let msgid ← p.inState (p.evalStringValue arg1)
    p.appendMessage (p.newMessage pos msgctxt msgid)
  else if fnName = bytes ("NGettext") then .ok p
  else if fnName = bytes ("PNGettext") then .ok p
  else if fnName = bytes ("DGettext") then .ok p
  else if fnName = bytes ("DPGettext") then .ok p
  else if fnName = bytes ("DNGettext") then .ok p
  else if fnName = bytes ("DPNGettext") then .ok p
  else .ok p

/-- The callback that `GenPotFile` hands to `ast.Inspect`: a call whose callee is a
selector is passed to `processGettext` under the selector name; the callback
always returns true. -/
def Package.visit (p : Package) (n : ast.Node) : Except Panic (Package × Bool) :=
  match n with
  | .CallExpr fn args =>
    match fn with
    | .SelectorExpr _ _ selName => do
      let p ← p.processGettext { Fun := fn, Args := args } selName
      pure (p, true)
    | _ => pure (p, true)
  | _ => pure (p, true)

/-- The header that `GenPotFile` starts the catalog with. -/
def Package.newHeader (p : Package) (now : time.Time) : po.Header :=
  { Comment :=
      { TranslatorComment :=
          bytes ("") ++ (bytes ("package: ") ++ p.pkgpath ++ bytes ("\n\n"))
            ++ bytes ("Generated By gettext-go") ++ bytes ("\n")
            ++ bytes ("https://github.com/chai2010/gettext-go") ++ bytes ("\n") }
    ProjectIdVersion := bytes ("1.0")
    POTCreationDate := now.Format
    LanguageTeam := bytes ("golang-china")
    Language := bytes ("zh_CN")
    MimeVersion := bytes ("MIME-Version: 1.0")
    ContentType := bytes ("Content-Type: text/plain; charset=UTF-8")
    ContentTransferEncoding := bytes ("Content-Transfer-Encoding: 8bit") }

/-- The loop of `GenPotFile` over the parsed files. -/
def Package.inspectFiles : List ast.Node → Package → Except Panic Package
  | [], p => .ok p
  | f :: fs, p => do
    let p ← ast.Inspect Package.visit f p
    Package.inspectFiles fs p

/-- The method `GenPotFile`, given the reading of the clock: it installs a fresh
catalog, inspects every parsed file and returns the catalog pointer together with
the package as the scan left it. When the scan panics nothing is returned. -/
def Package.GenPotFile (p : Package) (now : time.Time) :
    Except Panic (Option po.File × Package) := do
  let p := { p with potFile := some { MimeHeader := p.newHeader now, Messages := [] } }
  let p ← Package.inspectFiles p.astFiles p
  .ok (p.potFile, p)

/-! ## Vocabulary of the statements -/

/-- No sequence of the list starts with the byte `b`, and none is empty. -/
def strings.headsAvoid (encs : List GoString) (b : UInt8) : Bool :=
  encs.all (fun e => match e with
    | [] => false
    | a :: _ => a != b)

/-- No sequence of the list is a proper prefix of another one. -/
def strings.prefixFree (encs : List GoString) : Bool :=
  encs.all (fun e => encs.all (fun e' => !(e'.isPrefixOf e) || e' == e))

/-- Every sequence of the list is one of the encodings of a space. -/
def strings.allSpaces (es : List GoString) : Prop :=
  ∀ e ∈ es, e ∈ strings.spaceEncodings

instance (es : List GoString) : Decidable (strings.allSpaces es) := by
  unfold strings.allSpaces; infer_instance

deriving instance DecidableEq for Except

/-- The double quote. -/
def quote : UInt8 := 0x22

/-- The source text of the interpreted string literal whose content is `s`: the
content between two double quotes. -/
def quoted (s : GoString) : GoString := quote :: (s ++ [quote])

/-- The string neither begins nor ends with a double quote or a newline, the two
bytes that the evaluator trims from a literal. -/
def cleanEnds (s : GoString) : Prop :=
  s.head? ≠ some 0x22 ∧ s.head? ≠ some 0x0A ∧ s.getLast? ≠ some 0x22 ∧ s.getLast? ≠ some 0x0A

instance (s : GoString) : Decidable (cleanEnds s) := by
  unfold cleanEnds; infer_instance

/-- A string literal node with the given content. -/
def stringLit (pos : token.Pos) (s : GoString) : ast.Node :=
  .BasicLit pos .STRING (quoted s)

/-- The back quote, the delimiter of a raw string literal. -/
def backquote : UInt8 := 0x60

/-- The source text of the raw string literal whose content is `s`: the content
between two back quotes. -/
def backquoted (s : GoString) : GoString := backquote :: (s ++ [backquote])

/-- A raw string literal node with the given content. -/
def rawStringLit (pos : token.Pos) (s : GoString) : ast.Node :=
  .BasicLit pos .STRING (backquoted s)

/-- The node is neither a basic literal nor a binary expression. -/
def unsupported : ast.Node → Bool
  | .BasicLit _ _ _ => false
  | .BinaryExpr _ _ _ _ => false
  | _ => true

/-- The message list of the catalog after a step of the scanner, when the step did
not panic and the catalog is set. -/
def messagesOf (r : Except Panic Package) : Option (List po.Message) :=
  match r with
  | .ok p => p.potFile.map (fun f => f.Messages)
  | .error _ => none

/-- The evaluation of the node panics. -/
def evalFails (p : Package) (a : ast.Node) : Prop :=
  ∃ flt, p.evalStringValue a = .error flt

/-- A used argument of a call of the named function fails to evaluate: argument 0 of
a `Gettext` call, argument 0 or argument 1 of a `PGettext` call. -/
def usedArgFails (p : Package) (fnName : GoString) (args : List ast.Node) : Prop :=
  (fnName = bytes ("Gettext") ∧ ∃ a, args.get? 0 = some a ∧ evalFails p a) ∨
  (fnName = bytes ("PGettext") ∧
    ((∃ a, args.get? 0 = some a ∧ evalFails p a) ∨ (∃ a, args.get? 1 = some a ∧ evalFails p a)))

mutual
/-- The nodes of a tree, in the order in which `ast.Inspect` hands them to a callback
that always returns true: a node, then the nodes of its children from left to
right. -/
def ast.Node.subnodes : ast.Node → List ast.Node
  | .Ident namePos name => [.Ident namePos name]
  | .BasicLit valuePos kind value => [.BasicLit valuePos kind value]
  | .BinaryExpr x opPos op y => .BinaryExpr x opPos op y :: (x.subnodes ++ y.subnodes)
  | .SelectorExpr x selPos selName =>
    .SelectorExpr x selPos selName :: (x.subnodes ++ [.Ident selPos selName])
  | .CallExpr fn args => .CallExpr fn args :: (fn.subnodes ++ ast.subnodesList args)
  | .Other pos children => .Other pos children :: ast.subnodesList children
/-- The nodes of the trees of a list, one tree after the other. -/
def ast.subnodesList : List ast.Node → List ast.Node
  | [] => []
  | n :: ns => n.subnodes ++ ast.subnodesList ns
end

/-- The call `recv.name(args...)`, where the receiver is the identifier `recv` at
position `pos`. -/
def selectorCall (pos : token.Pos) (recv name : GoString) (args : List ast.Node) :
    ast.CallExpr :=
  { Fun := .SelectorExpr (.Ident pos recv) (pos + recv.length + 1) name, Args := args }

/-- One step of a traversal: the callback applied to a node, its verdict dropped. -/
def stepOf {ε σ : Type} (f : σ → ast.Node → Except ε (σ × Bool)) (s : σ) (n : ast.Node) :
    Except ε σ :=
  match f s n with
  | .ok r => .ok r.1
  | .error e => .error e

/-- A file with one function whose body calls `tr.Gettext(someVariable)` after
`tr.Gettext("first")`. -/
def demoFile : ast.Node :=
  .Other 1 [.Ident 9 (bytes ("main")),
    .Other 15 [.Ident 20 (bytes ("run")),
      .Other 30 [
        .CallExpr (.SelectorExpr (.Ident 41 (bytes ("tr"))) 44 (bytes ("Gettext")))
          [stringLit 52 (bytes ("first"))],
        .CallExpr (.SelectorExpr (.Ident 81 (bytes ("tr"))) 84 (bytes ("Gettext")))
          [.Ident 92 (bytes ("someVariable"))]]]]

/-- The reading of the clock used in the examples: 2020-03-07 09:05 at UTC+8. -/
def demoTime : time.Time :=
  { Year := 2020, Month := 3, Day := 7, Hour := 9, Minute := 5, Offset := 28800 }

/-- A package with no files, whose file set reads a position `n` as offset `n` of
the file `/src/demo/main.go`, forty bytes to the line. -/
def demoPackage : Package :=
  { path := bytes ("demo")
    pkgpath := bytes ("example.com/demo")
    pkgname := bytes ("demo")
    filesAbspath := [bytes ("/src/demo/main.go")]
    fset := { Position := fun n =>
      { Filename := bytes ("/src/demo/main.go"), Offset := n, Line := n / 40 + 1,
        Column := n % 40 + 1 } }
    astFiles := []
    potFile := some {} }

/-- The demonstration package with `demoFile` as its only parsed file. -/
def demoScanPackage : Package := { demoPackage with astFiles := [demoFile] }

/-- A file whose function body is the call `tr.Gettext("")`. -/
def demoEmptyIdFile : ast.Node :=
  .Other 1 [.Ident 9 (bytes ("main")),
    .Other 15 [.Ident 20 (bytes ("run")),
      .Other 30 [
        .CallExpr (.SelectorExpr (.Ident 41 (bytes ("tr"))) 44 (bytes ("Gettext")))
          [stringLit 52 (bytes (""))]]]]

/-- The demonstration package with `demoEmptyIdFile` as its only parsed file. -/
def demoEmptyIdPackage : Package := { demoPackage with astFiles := [demoEmptyIdFile] }

/-- A file whose function body holds, in this order, `tr.Gettext("dup")` twice, the
bare call `Gettext("bare")`, and `fmt.Println(tr.PGettext("menu", "Open"))`. -/
def demoNestedFile : ast.Node :=
  .Other 1 [.Ident 9 (bytes ("main")),
    .Other 15 [.Ident 20 (bytes ("run")),
      .Other 30 [
        .CallExpr (.SelectorExpr (.Ident 41 (bytes ("tr"))) 44 (bytes ("Gettext")))
          [stringLit 52 (bytes ("dup"))],
        .CallExpr (.SelectorExpr (.Ident 81 (bytes ("tr"))) 84 (bytes ("Gettext")))
          [stringLit 92 (bytes ("dup"))],
        .CallExpr (.Ident 121 (bytes ("Gettext"))) [stringLit 129 (bytes ("bare"))],
        .CallExpr (.SelectorExpr (.Ident 161 (bytes ("fmt"))) 165 (bytes ("Println")))
          [.CallExpr (.SelectorExpr (.Ident 173 (bytes ("tr"))) 176 (bytes ("PGettext")))
            [stringLit 185 (bytes ("menu")), stringLit 193 (bytes ("Open"))]]]]]

/-- The demonstration package with `demoNestedFile` as its only parsed file. -/
def demoNestedPackage : Package := { demoPackage with astFiles := [demoNestedFile] }

/-- The entries of the catalog of `demoNestedPackage`. -/
def demoNestedMessages : List po.Message :=
  [demoNestedPackage.newMessage (demoNestedPackage.fset.Position 41) [] (bytes ("dup")),
   demoNestedPackage.newMessage (demoNestedPackage.fset.Position 81) [] (bytes ("dup")),
   demoNestedPackage.newMessage (demoNestedPackage.fset.Position 173) (bytes ("menu"))
     (bytes ("Open"))]

/-- The catalog of `demoNestedPackage` at the clock reading `demoTime`. -/
def demoNestedCatalog : po.File :=
  { MimeHeader := demoNestedPackage.newHeader demoTime, Messages := demoNestedMessages }

/-- The package with its catalog pointer set to the given catalog. -/
def Package.withCatalog (p : Package) (f : po.File) : Package :=
  { p with potFile := some f }

/-- The catalog with one more entry behind its message list. -/
def po.File.push (f : po.File) (m : po.Message) : po.File :=
  { f with Messages := f.Messages ++ [m] }

/-- The node is a call whose callee is a selector named `Gettext` or `PGettext`. -/
def isGettextCall : ast.Node → Bool
  | .CallExpr (.SelectorExpr _ _ name) _ =>
    name == bytes ("Gettext") || name == bytes ("PGettext")
  | _ => false

/-- The entry that a node stands for, after the table of the scanner's contract: for
`X.Gettext(a0, ...)` the context is empty and the id is the value of `a0`; for
`X.PGettext(a0, a1, ...)` the context is the value of `a0` and the id is the value of
`a1`; any other node stands for no entry. The entry is tagged with the position of
the call, which is the position of `X`. -/
def Package.entryOf (p : Package) : ast.Node → Except Fault (Option po.Message)
  | .CallExpr (.SelectorExpr x _ name) args =>
    if name = bytes ("Gettext") then
      match index args 0 with
      | .error e => .error e
      | .ok a0 =>
        match p.evalStringValue a0 with
        | .error e => .error e
        | .ok msgid => .ok (some (p.newMessage (p.fset.Position x.Pos) [] msgid))
    else if name = bytes ("PGettext") then
      match index args 0 with
      | .error e => .error e
      | .ok a0 =>
        match p.evalStringValue a0 with
        | .error e => .error e
        | .ok msgctxt =>
          match index args 1 with
          | .error e => .error e
          | .ok a1 =>
            match p.evalStringValue a1 with
            | .error e => .error e
            | .ok msgid => .ok (some (p.newMessage (p.fset.Position x.Pos) msgctxt msgid))
    else .ok none
  | _ => .ok none

/-- The entries that the nodes of a list stand for, in the order of the list; the
panic of the first node whose entry cannot be built. -/
def Package.entriesOf (p : Package) : List ast.Node → Except Fault (List po.Message)
  | [] => .ok []
  | n :: ns =>
    match p.entryOf n with
    | .error e => .error e
    | .ok o =>
      match p.entriesOf ns with
      | .error e => .error e
      | .ok ms => .ok (o.toList ++ ms)

/-- The catalog that a run of `GenPotFile` returned, if it returned. -/
def catalogOf (r : Except Panic (Option po.File × Package)) : Option po.File :=
  match r with
  | .ok (f, _) => f
  | .error _ => none

/-- The kind of the panic of a run, if it panicked. -/
def faultOf {α : Type} (r : Except Panic α) : Option Fault :=
  match r with
  | .ok _ => none
  | .error e => some e.fault


/-! ## Trimming a quoted literal -/

theorem strings.stripLeading_of_no_match (encs : List GoString) (fuel : Nat) (s : GoString)
    (h : encs.find? (fun e => e.isPrefixOf s) = none) : strings.stripLeading encs fuel s = s := by
  cases fuel <;> simp [strings.stripLeading, h]

theorem strings.stripLeading_cons (encs : List GoString) (b : UInt8)
    (h : strings.headsAvoid encs b = true) (fuel : Nat) (t : GoString) :
    strings.stripLeading encs fuel (b :: t) = b :: t := by
  apply strings.stripLeading_of_no_match
  rw [List.find?_eq_none]
  intro e he
  have h1 := (List.all_eq_true.mp h) e he
  cases e with
  | nil => simp at h1
  | cons a as =>
    have hab : a ≠ b := by simpa using h1
    simp [List.isPrefixOf, hab]

theorem strings.TrimSpace_quoted (s : GoString) :
    strings.TrimSpace (quoted s) = quoted s := by
  have hl : strings.trimLeftSpace (quoted s) = quoted s :=
    strings.stripLeading_cons _ _ (by decide) _ _
  have hr : strings.trimRightSpace (quoted s) = quoted s := by
    unfold strings.trimRightSpace
    have hrev : (quoted s).reverse = quote :: (s.reverse ++ [quote]) := by
      simp [quoted]
    rw [hrev, strings.stripLeading_cons _ _ (by decide)]
    simp [quoted]
  unfold strings.TrimSpace
  rw [hl, hr]

theorem strings.find?_encoding (encs : List GoString) (hpf : strings.prefixFree encs = true)
    (e r : GoString) (he : e ∈ encs) :
    encs.find? (fun e' => e'.isPrefixOf (e ++ r)) = some e := by
  cases hfind : encs.find? (fun e' => e'.isPrefixOf (e ++ r)) with
  | none =>
    rw [List.find?_eq_none] at hfind
    have := hfind e he
    simp at this
  | some e' =>
    have hmem := List.mem_of_find?_eq_some hfind
    have hp := List.find?_some hfind
    simp only [List.isPrefixOf_iff_prefix] at hp
    have hcmp := List.prefix_or_prefix_of_prefix hp (List.prefix_append e r)
    have h1 := (List.all_eq_true.mp ((List.all_eq_true.mp hpf) e he)) e' hmem
    have h2 := (List.all_eq_true.mp ((List.all_eq_true.mp hpf) e' hmem)) e he
    simp only [Bool.or_eq_true, Bool.not_eq_true', beq_iff_eq, List.isPrefixOf_iff_prefix]
      at h1 h2
    rcases hcmp with h | h
    · rcases h1 with h1 | h1
      · have : e'.isPrefixOf e = true := by simpa using h
        simp [this] at h1
      · rw [h1]
    · rcases h2 with h2 | h2
      · have : e.isPrefixOf e' = true := by simpa using h
        simp [this] at h2
      · rw [h2]

theorem strings.stripLeading_flatten (encs : List GoString)
    (hpf : strings.prefixFree encs = true) (r : GoString)
    (hr : encs.find? (fun e => e.isPrefixOf r) = none) :
    ∀ (es : List GoString) (fuel : Nat), (∀ e ∈ es, e ∈ encs) → es.length ≤ fuel →
      strings.stripLeading encs fuel (es.flatten ++ r) = r
  | [], fuel, _, _ => by
    simpa using strings.stripLeading_of_no_match encs fuel r hr
  | e :: es, 0, _, h => by simp at h
  | e :: es, fuel + 1, hm, h => by
    have he : e ∈ encs := hm e (List.mem_cons_self _ _)
    simp only [List.flatten_cons, List.append_assoc, strings.stripLeading,
      strings.find?_encoding encs hpf e _ he, List.drop_left]
    exact strings.stripLeading_flatten encs hpf r hr es fuel
      (fun e' h' => hm e' (List.mem_cons_of_mem _ h')) (by simpa using h)

theorem strings.length_le_flatten (encs : List GoString) (hne : [] ∉ encs) :
    ∀ es : List GoString, (∀ e ∈ es, e ∈ encs) → es.length ≤ es.flatten.length
  | [], _ => by simp
  | e :: es, hm => by
    have he : e ≠ [] := fun h => hne (h ▸ hm e (List.mem_cons_self _ _))
    have hpos : 0 < e.length := List.length_pos.mpr he
    have ih := strings.length_le_flatten encs hne es
      (fun e' h' => hm e' (List.mem_cons_of_mem _ h'))
    simp only [List.flatten_cons, List.length_append, List.length_cons]
    omega

theorem strings.TrimSpace_spaced_quoted (before after : List GoString) (s : GoString)
    (hb : strings.allSpaces before) (ha : strings.allSpaces after) :
    strings.TrimSpace (before.flatten ++ quoted s ++ after.flatten) = quoted s := by
  have hnone : ∀ (encs : List GoString) (t : GoString),
      strings.headsAvoid encs quote = true →
      encs.find? (fun e => e.isPrefixOf (quote :: t)) = none := by
    intro encs t h
    rw [List.find?_eq_none]
    intro e he
    have h1 := (List.all_eq_true.mp h) e he
    cases e with
    | nil => simp at h1
    | cons a as =>
      have hab : a ≠ quote := by simpa using h1
      simp [List.isPrefixOf, hab]
  have hl : strings.trimLeftSpace (before.flatten ++ quoted s ++ after.flatten)
      = quoted s ++ after.flatten := by
    unfold strings.trimLeftSpace
    rw [List.append_assoc]
    apply strings.stripLeading_flatten _ (by decide) _ (hnone _ _ (by decide)) _ _ hb
    have := strings.length_le_flatten strings.spaceEncodings (by decide) before hb
    simp only [List.length_append]
    omega
  have hrev : (quoted s ++ after.flatten).reverse
      = (after.map List.reverse).reverse.flatten ++ quote :: (s.reverse ++ [quote]) := by
    simp [quoted, List.reverse_flatten]
  have hmem : ∀ e ∈ (after.map List.reverse).reverse,
      e ∈ strings.spaceEncodings.map List.reverse := by
    intro e he
    simp only [List.mem_reverse, List.mem_map] at he
    obtain ⟨a, ha1, ha2⟩ := he
    exact List.mem_map.mpr ⟨a, ha a ha1, ha2⟩
  have hr : strings.trimRightSpace (quoted s ++ after.flatten) = quoted s := by
    unfold strings.trimRightSpace
    rw [hrev, strings.stripLeading_flatten _ (by decide) _ (hnone _ _ (by decide)) _ _ hmem]
    · simp [quoted]
    · have := strings.length_le_flatten (strings.spaceEncodings.map List.reverse)
        (by decide) _ hmem
      have hlen : ((after.map List.reverse).reverse.flatten).length = after.flatten.length := by
        rw [← List.reverse_flatten, List.length_reverse]
      rw [List.length_append]
      omega
  unfold strings.TrimSpace
  rw [hl, hr]

theorem cutset_eq : bytes ("\"") ++ bytes ("\n") = [0x22, 0x0A] := by decide

theorem strings.Trim_quoted (s : GoString) (h : cleanEnds s) :
    strings.Trim (quoted s) [0x22, 0x0A] = s := by
  obtain ⟨h1, h2, h3, h4⟩ := h
  have hq : (fun b : UInt8 => [(0x22 : UInt8), 0x0A].contains b) quote = true := by decide
  unfold strings.Trim
  rw [if_neg (by simp [quoted])]
  have e1 : quoted s = (quote :: s) ++ [quote] := by simp [quoted]
  rw [e1, List.rdropWhile_concat_pos _ _ _ hq]
  cases s using List.reverseRecOn with
  | nil =>
    have : ([quote] : GoString) = [] ++ [quote] := rfl
    rw [this, List.rdropWhile_concat_pos _ _ _ hq]
    simp
  | append_singleton l a _ =>
    have ha : ¬ ((fun b : UInt8 => [(0x22 : UInt8), 0x0A].contains b) a = true) := by
      have h3a : a ≠ 0x22 := by
        intro e; apply h3; simp [e]
      have h4a : a ≠ 0x0A := by
        intro e; apply h4; simp [e]
      simp [h3a, h4a]
    have e2 : quote :: (l ++ [a]) = (quote :: l) ++ [a] := by simp
    rw [e2, List.rdropWhile_concat_neg _ _ _ ha, ← e2, List.dropWhile_cons_of_pos hq]
    cases l with
    | nil =>
      rw [List.nil_append, List.dropWhile_cons_of_neg ha]
    | cons c cs =>
      have hc : ¬ ((fun b : UInt8 => [(0x22 : UInt8), 0x0A].contains b) c = true) := by
        have h1c : c ≠ 0x22 := by
          intro e; apply h1; simp [e]
        have h2c : c ≠ 0x0A := by
          intro e; apply h2; simp [e]
        simp [h1c, h2c]
      simp only [List.cons_append]
      rw [List.dropWhile_cons_of_neg hc]

/-! ## The literal evaluator -/

theorem evalStringValue_quoted (p : Package) (pos : token.Pos) (kind : token.Token)
    (s : GoString) (h : cleanEnds s) :
    p.evalStringValue (.BasicLit pos kind (quoted s)) = .ok s := by
  simp only [Package.evalStringValue, strings.TrimSpace_quoted, cutset_eq,
    strings.Trim_quoted s h]

theorem slice_init (l : GoString) (h : l ≠ []) :
    slice l 0 ((l.length : Int) - 1) = .ok l.dropLast := by
  have hpos : 0 < l.length := List.length_pos.mpr h
  have hc : (0 : Int) ≤ 0 ∧ (0 : Int) ≤ (l.length : Int) - 1 ∧
      (l.length : Int) - 1 ≤ (l.length : Int) := by omega
  have e : ((l.length : Int) - 1).toNat = l.length - 1 := by omega
  simp only [slice, if_pos hc, e, Int.toNat_zero, Nat.sub_zero, List.drop_zero,
    List.dropLast_eq_take]

theorem slice_tail (r : GoString) (h : r ≠ []) :
    slice r 1 (r.length : Int) = .ok r.tail := by
  have hpos : 0 < r.length := List.length_pos.mpr h
  have hc : (0 : Int) ≤ 1 ∧ (1 : Int) ≤ (r.length : Int) ∧
      (r.length : Int) ≤ (r.length : Int) := by omega
  have e : ((r.length : Int)).toNat - (1 : Int).toNat = r.length - 1 := by omega
  have e1 : (1 : Int).toNat = 1 := rfl
  simp only [slice, if_pos hc, e, e1]
  rw [List.take_of_length_le (by simp), List.drop_one]

theorem slice_init_nil : slice [] 0 (((([] : GoString).length : Nat) : Int) - 1)
    = .error .sliceBounds := by
  decide

theorem slice_tail_nil : slice [] 1 ((([] : GoString).length : Nat) : Int)
    = .error .sliceBounds := by
  decide

theorem evalStringValue_spaced_quoted (p : Package) (pos : token.Pos) (kind : token.Token)
    (before after : List GoString) (s : GoString)
    (hb : strings.allSpaces before) (ha : strings.allSpaces after) (h : cleanEnds s) :
    p.evalStringValue (.BasicLit pos kind (before.flatten ++ quoted s ++ after.flatten))
      = .ok s := by
  simp only [Package.evalStringValue, strings.TrimSpace_spaced_quoted before after s hb ha,
    cutset_eq, strings.Trim_quoted s h]

/-- Where the evaluator of literals is right: for every interpreted string literal
whose content `s` neither begins nor ends with a double quote or a newline,
`evalStringValue` returns exactly `s`: the two quotes, and any white space around
them, are stripped and the content is kept byte for byte. -/
theorem evalStringValue_literal (p : Package) (pos : token.Pos)
    (before after : List GoString) (s : GoString)
    (hb : strings.allSpaces before) (ha : strings.allSpaces after) (h : cleanEnds s) :
    p.evalStringValue (.BasicLit pos .STRING (before.flatten ++ quoted s ++ after.flatten))
      = .ok s :=
  evalStringValue_spaced_quoted p pos .STRING before after s hb ha h

/-- An instance: the literal `"hello"` yields `hello`, also with a blank before it
and a newline after it. -/
theorem evalStringValue_literal_witness :
    cleanEnds (bytes ("hello")) ∧
      demoPackage.evalStringValue (stringLit 7 (bytes ("hello"))) = .ok (bytes ("hello")) ∧
      demoPackage.evalStringValue
        (.BasicLit 7 .STRING (bytes (" ") ++ quoted (bytes ("hello")) ++ bytes ("\n")))
        = .ok (bytes ("hello")) :=
  ⟨by decide,
    evalStringValue_literal demoPackage 7 [] [] (bytes ("hello")) (by decide) (by decide)
      (by decide),
    evalStringValue_literal demoPackage 7 [bytes (" ")] [bytes ("\n")] (bytes ("hello"))
      (by decide) (by decide) (by decide)⟩

/-- C1, the code at the failing inputs: the literal `"say \"hi\""` has the content
`say \"hi\"`, and the evaluator returns `say \"hi\`, the escaped quote that ends the
content being trimmed together with the closing quote; and the raw literal that holds
`hello` between two back quotes evaluates to itself, back quotes included, not to its
content `hello`. -/
theorem evalStringValue_literal_escaped_quote :
    demoPackage.evalStringValue (stringLit 7 (bytes ("say \\\"hi\\\"")))
        = .ok (bytes ("say \\\"hi\\")) ∧
      bytes ("say \\\"hi\\") ≠ bytes ("say \\\"hi\\\"") ∧
      demoPackage.evalStringValue (rawStringLit 7 (bytes ("hello")))
        = .ok (backquoted (bytes ("hello"))) ∧
      backquoted (bytes ("hello")) ≠ bytes ("hello") := by
  decide

/-- C2, the code at the failing input: `"abc" + "def"` evaluates to `abef`, not to
`abcdef`. -/
theorem evalStringValue_abc_def :
    demoPackage.evalStringValue
        (.BinaryExpr (stringLit 1 (bytes ("abc"))) 7 .ADD (stringLit 9 (bytes ("def"))))
        = .ok (bytes ("abef")) ∧
      bytes ("abef") ≠ bytes ("abc") ++ bytes ("def") := by
  decide

/-- C3: when the left operand of a `+` evaluates to `l` and the right operand to `r`,
both non-empty, the `+` expression evaluates to `l` without its last byte followed
by `r` without its first byte. -/
theorem evalStringValue_add (p : Package) (x y : ast.Node) (opPos : token.Pos)
    (l r : GoString) (hx : p.evalStringValue x = .ok l) (hy : p.evalStringValue y = .ok r)
    (hl : l ≠ []) (hr : r ≠ []) :
    p.evalStringValue (.BinaryExpr x opPos .ADD y) = .ok (l.dropLast ++ r.tail) := by
  simp only [Package.evalStringValue, ne_eq, not_true_eq_false, if_false, hx, hy, bind,
    Except.bind, slice_init l hl, slice_tail r hr]

/-- C3, witness: `"ab" + "cd"` evaluates to `ad`. -/
theorem evalStringValue_add_witness :
    demoPackage.evalStringValue
        (.BinaryExpr (stringLit 1 (bytes ("ab"))) 6 .ADD (stringLit 8 (bytes ("cd"))))
      = .ok (bytes ("ad")) :=
  evalStringValue_add demoPackage (stringLit 1 (bytes ("ab"))) (stringLit 8 (bytes ("cd"))) 6
    (bytes ("ab")) (bytes ("cd")) (by decide) (by decide) (by decide) (by decide)

/-- C4, the code at failing inputs: `"" + "x"` and the chain `"a" + "b" + "c"` are
concatenations of string literals, and the evaluator panics on both with slice
bounds out of range. -/
theorem evalStringValue_concat_panics :
    demoPackage.evalStringValue
        (.BinaryExpr (stringLit 1 (bytes (""))) 4 .ADD (stringLit 6 (bytes ("x"))))
        = .error .sliceBounds ∧
      demoPackage.evalStringValue
        (.BinaryExpr
          (.BinaryExpr (stringLit 1 (bytes ("a"))) 5 .ADD (stringLit 7 (bytes ("b"))))
          11 .ADD (stringLit 13 (bytes ("c"))))
        = .error .sliceBounds := by
  decide

/-- C5: an expression that is neither a basic literal nor a binary expression makes
the evaluator panic, and so does every `+` expression that has it as its left or as
its right operand. -/
theorem evalStringValue_unsupported (p : Package) (e other : ast.Node) (opPos : token.Pos)
    (h : unsupported e = true) :
    p.evalStringValue e = .error .unknownType ∧
      p.evalStringValue (.BinaryExpr e opPos .ADD other) = .error .unknownType ∧
      ∃ flt, p.evalStringValue (.BinaryExpr other opPos .ADD e) = .error flt := by
  have he : p.evalStringValue e = .error .unknownType := by
    cases e <;> simp [unsupported] at h <;> simp [Package.evalStringValue]
  refine ⟨he, ?_, ?_⟩
  · simp only [Package.evalStringValue, ne_eq, not_true_eq_false, if_false, he]
    rfl
  · simp only [Package.evalStringValue, ne_eq, not_true_eq_false, if_false, he]
    cases p.evalStringValue other with
    | error flt => exact ⟨flt, rfl⟩
    | ok v => exact ⟨.unknownType, rfl⟩

/-- C5, witness: the identifier `name`, alone and on either side of a `+`. -/
theorem evalStringValue_unsupported_witness :
    demoPackage.evalStringValue (.Ident 3 (bytes ("name"))) = .error .unknownType ∧
      demoPackage.evalStringValue
        (.BinaryExpr (.Ident 3 (bytes ("name"))) 8 .ADD (stringLit 10 (bytes ("x"))))
        = .error .unknownType ∧
      ∃ flt, demoPackage.evalStringValue
        (.BinaryExpr (stringLit 10 (bytes ("x"))) 8 .ADD (.Ident 3 (bytes ("name"))))
        = .error flt :=
  evalStringValue_unsupported demoPackage (.Ident 3 (bytes ("name")))
    (stringLit 10 (bytes ("x"))) 8 (by decide)

/-- C6: a binary expression whose operator is not `+` evaluates to the empty string
without a panic, whatever its operands are. -/
theorem evalStringValue_other_operator (p : Package) (x y : ast.Node) (opPos : token.Pos)
    (op : token.Token) (h : op ≠ token.Token.ADD) :
    p.evalStringValue (.BinaryExpr x opPos op y) = .ok [] := by
  simp only [Package.evalStringValue, ne_eq, h, not_false_eq_true, if_true]

/-- C6, witness: `a - b` on two identifiers evaluates to the empty string. -/
theorem evalStringValue_other_operator_witness :
    demoPackage.evalStringValue
        (.BinaryExpr (.Ident 3 (bytes ("a"))) 5 .SUB (.Ident 7 (bytes ("b")))) = .ok [] :=
  evalStringValue_other_operator demoPackage (.Ident 3 (bytes ("a")))
    (.Ident 7 (bytes ("b"))) 5 .SUB (by decide)

/-! ## The dispatch on the function name -/

theorem index_cons_zero {α : Type} (a : α) (rest : List α) : index (a :: rest) 0 = .ok a := rfl

theorem index_cons_one {α : Type} (a b : α) (rest : List α) :
    index (a :: b :: rest) 1 = .ok b := rfl

/-- Where the entry of a `Gettext` call is right: on a package whose catalog is set,
for a first argument that is a string literal with a content `s` that has no double quote
and no newline at either of its two ends, `processGettext` appends exactly one entry
to the catalog; its context is empty, its id is `s`, its flags are `go-format`, and its
only reference line is the line of the start of the call. -/
theorem processGettext_Gettext (p : Package) (f : po.File) (x : ast.CallExpr)
    (pos : token.Pos) (s : GoString) (rest : List ast.Node)
    (hf : p.potFile = some f) (hargs : x.Args = stringLit pos s :: rest) (hs : cleanEnds s) :
    ∃ m : po.Message,
      p.processGettext x (bytes ("Gettext"))
        = .ok { p with potFile := some { f with Messages := f.Messages ++ [m] } } ∧
      m.MsgContext = [] ∧ m.MsgId = s ∧ m.Comment.Flags = [bytes ("go-format")] ∧
      m.Comment.ReferenceLine = [((p.fset.Position x.Pos).Line : Int)] := by
  refine ⟨p.newMessage (p.fset.Position x.Pos) [] s, ?_, rfl, rfl, rfl, rfl⟩
  simp only [Package.processGettext, if_true, hargs, index_cons_zero, Package.inState,
    stringLit, evalStringValue_quoted p pos .STRING s hs, bind, Except.bind,
    Package.appendMessage, hf]

/-- An instance: `tr.Gettext("hello")` at position 85, on line 3. -/
theorem processGettext_Gettext_witness :
    ∃ m : po.Message,
      demoPackage.processGettext
          (selectorCall 85 (bytes ("tr")) (bytes ("Gettext")) [stringLit 96 (bytes ("hello"))])
          (bytes ("Gettext"))
        = .ok { demoPackage with potFile := some { Messages := [] ++ [m] } } ∧
      m.MsgContext = [] ∧ m.MsgId = bytes ("hello") ∧
      m.Comment.Flags = [bytes ("go-format")] ∧ m.Comment.ReferenceLine = [3] :=
  processGettext_Gettext demoPackage {}
    (selectorCall 85 (bytes ("tr")) (bytes ("Gettext")) [stringLit 96 (bytes ("hello"))])
    96 (bytes ("hello")) [] rfl rfl (by decide)

/-- C7, the code at the failing inputs: for `tr.Gettext("5\"")` the content of the
literal is `5\"` and the id of the appended entry is `5\`; and for `tr.Gettext` on
the raw literal that holds `hello` between two back quotes, the id of the appended
entry keeps the two back quotes. -/
theorem processGettext_Gettext_escaped_quote :
    (messagesOf (demoPackage.processGettext
        (selectorCall 85 (bytes ("tr")) (bytes ("Gettext")) [stringLit 96 (bytes ("5\\\""))])
        (bytes ("Gettext")))).map (List.map (fun m => m.MsgId)) = some [bytes ("5\\")] ∧
      bytes ("5\\") ≠ bytes ("5\\\"") ∧
      (messagesOf (demoPackage.processGettext
        (selectorCall 85 (bytes ("tr")) (bytes ("Gettext")) [rawStringLit 96 (bytes ("hello"))])
        (bytes ("Gettext")))).map (List.map (fun m => m.MsgId))
        = some [backquoted (bytes ("hello"))] ∧
      backquoted (bytes ("hello")) ≠ bytes ("hello") := by
  decide

/-- Where the entry of a `PGettext` call is right: on a package whose catalog is
set, for two first arguments that are string literals with contents `c` and `m` that
neither begin nor end with a double quote or a newline, `processGettext` appends
exactly one entry, whose context is `c` and whose id is `m`. -/
theorem processGettext_PGettext (p : Package) (f : po.File) (x : ast.CallExpr)
    (pos0 pos1 : token.Pos) (c m : GoString) (rest : List ast.Node)
    (hf : p.potFile = some f)
    (hargs : x.Args = stringLit pos0 c :: stringLit pos1 m :: rest)
    (hc : cleanEnds c) (hm : cleanEnds m) :
    ∃ e : po.Message,
      p.processGettext x (bytes ("PGettext"))
        = .ok { p with potFile := some { f with Messages := f.Messages ++ [e] } } ∧
      e.MsgContext = c ∧ e.MsgId = m := by
  refine ⟨p.newMessage (p.fset.Position x.Pos) c m, ?_, rfl, rfl⟩
  have hne : bytes ("PGettext") ≠ bytes ("Gettext") := by decide
  simp only [Package.processGettext, if_neg hne, if_true, hargs, index_cons_zero,
    index_cons_one, Package.inState, stringLit, evalStringValue_quoted p pos0 .STRING c hc,
    evalStringValue_quoted p pos1 .STRING m hm, bind, Except.bind, Package.appendMessage, hf]

/-- An instance: `tr.PGettext("ctx", "msg")` yields the context `ctx` and the id
`msg`. -/
theorem processGettext_PGettext_witness :
    ∃ e : po.Message,
      demoPackage.processGettext
          (selectorCall 85 (bytes ("tr")) (bytes ("PGettext"))
            [stringLit 97 (bytes ("ctx")), stringLit 104 (bytes ("msg"))])
          (bytes ("PGettext"))
        = .ok { demoPackage with potFile := some { Messages := [] ++ [e] } } ∧
      e.MsgContext = bytes ("ctx") ∧ e.MsgId = bytes ("msg") :=
  processGettext_PGettext demoPackage {}
    (selectorCall 85 (bytes ("tr")) (bytes ("PGettext"))
      [stringLit 97 (bytes ("ctx")), stringLit 104 (bytes ("msg"))])
    97 104 (bytes ("ctx")) (bytes ("msg")) [] rfl rfl (by decide) (by decide)

/-- C8, the code at the failing inputs: for `tr.PGettext("\"title\"", "Open")` the
content of the first literal is `\"title\"` and the context of the appended entry is
`\"title\`, while the id is `Open`; and for `tr.PGettext` on the two raw literals that
hold `ctx` and `msg` between back quotes, the context and the id of the appended entry
keep their back quotes. -/
theorem processGettext_PGettext_escaped_quote :
    (messagesOf (demoPackage.processGettext
        (selectorCall 85 (bytes ("tr")) (bytes ("PGettext"))
          [stringLit 97 (bytes ("\\\"title\\\"")), stringLit 110 (bytes ("Open"))])
        (bytes ("PGettext")))).map (List.map (fun e => (e.MsgContext, e.MsgId)))
        = some [(bytes ("\\\"title\\"), bytes ("Open"))] ∧
      bytes ("\\\"title\\") ≠ bytes ("\\\"title\\\"") ∧
      (messagesOf (demoPackage.processGettext
        (selectorCall 85 (bytes ("tr")) (bytes ("PGettext"))
          [rawStringLit 97 (bytes ("ctx")), rawStringLit 104 (bytes ("msg"))])
        (bytes ("PGettext")))).map (List.map (fun e => (e.MsgContext, e.MsgId)))
        = some [(backquoted (bytes ("ctx")), backquoted (bytes ("msg")))] ∧
      backquoted (bytes ("ctx")) ≠ bytes ("ctx") ∧
      backquoted (bytes ("msg")) ≠ bytes ("msg") := by
  decide

/-- C9: for every function name other than `Gettext` and `PGettext` and every call
expression, `processGettext` does not panic and leaves the package, and with it the
message list of the catalog, as it was. -/
theorem processGettext_other_name (p : Package) (x : ast.CallExpr) (fnName : GoString)
    (h1 : fnName ≠ bytes ("Gettext")) (h2 : fnName ≠ bytes ("PGettext")) :
    p.processGettext x fnName = .ok p ∧
      messagesOf (p.processGettext x fnName) = p.potFile.map (fun f => f.Messages) := by
  have h : p.processGettext x fnName = .ok p := by
    simp only [Package.processGettext, if_neg h1, if_neg h2]
    split_ifs <;> rfl
  exact ⟨h, by rw [h]; rfl⟩

/-- C9, witness: `tr.NGettext(one, many, n)` on three identifiers, none of which the
evaluator could reduce to a string. -/
theorem processGettext_other_name_witness :
    demoPackage.processGettext
        (selectorCall 85 (bytes ("tr")) (bytes ("NGettext"))
          [.Ident 97 (bytes ("one")), .Ident 102 (bytes ("many")), .Ident 108 (bytes ("n"))])
        (bytes ("NGettext")) = .ok demoPackage ∧
      messagesOf (demoPackage.processGettext
        (selectorCall 85 (bytes ("tr")) (bytes ("NGettext"))
          [.Ident 97 (bytes ("one")), .Ident 102 (bytes ("many")), .Ident 108 (bytes ("n"))])
        (bytes ("NGettext"))) = demoPackage.potFile.map (fun f => f.Messages) :=
  processGettext_other_name demoPackage _ (bytes ("NGettext")) (by decide) (by decide)

/-! ## The traversal -/

theorem evalStringValue_state (p q : Package) :
    ∀ e : ast.Node, p.evalStringValue e = q.evalStringValue e
  | .BinaryExpr x _ _ y => by
    simp only [Package.evalStringValue, evalStringValue_state p q x,
      evalStringValue_state p q y]
  | .Ident _ _ => rfl
  | .BasicLit _ _ _ => rfl
  | .SelectorExpr _ _ _ => rfl
  | .CallExpr _ _ => rfl
  | .Other _ _ => rfl

theorem stepOf_ok {ε σ : Type} (f : σ → ast.Node → Except ε (σ × Bool)) (s : σ)
    (n : ast.Node) (r : σ × Bool) (h : f s n = .ok r) : stepOf f s n = .ok r.1 := by
  simp [stepOf, h]

theorem stepOf_error {ε σ : Type} (f : σ → ast.Node → Except ε (σ × Bool)) (s : σ)
    (n : ast.Node) (e : ε) (h : f s n = .error e) : stepOf f s n = .error e := by
  simp [stepOf, h]

theorem foldlM_cons_except {ε σ α : Type} (g : σ → α → Except ε σ) (a : α) (l : List α)
    (s : σ) : (a :: l).foldlM g s = (g s a).bind (fun t => l.foldlM g t) := rfl

theorem foldlM_append_except {ε σ α : Type} (g : σ → α → Except ε σ) (l₁ l₂ : List α)
    (s : σ) : (l₁ ++ l₂).foldlM g s = (l₁.foldlM g s).bind (fun t => l₂.foldlM g t) := by
  rw [List.foldlM_append]; rfl

mutual
theorem Inspect_eq_foldlM {ε σ : Type} (f : σ → ast.Node → Except ε (σ × Bool))
    (hf : ∀ s n r, f s n = .ok r → r.2 = true) :
    ∀ (n : ast.Node) (s : σ), ast.Inspect f n s = n.subnodes.foldlM (stepOf f) s
  | .Ident namePos name, s => by
    simp only [ast.Inspect, ast.Node.subnodes, foldlM_cons_except, List.foldlM_nil]
    cases h : f s (.Ident namePos name) with
    | error e => simp [stepOf, h, bind, Except.bind]
    | ok r => simp [stepOf, h, bind, Except.bind, pure, Except.pure]
  | .BasicLit valuePos kind value, s => by
    simp only [ast.Inspect, ast.Node.subnodes, foldlM_cons_except, List.foldlM_nil]
    cases h : f s (.BasicLit valuePos kind value) with
    | error e => simp [stepOf, h, bind, Except.bind]
    | ok r => simp [stepOf, h, bind, Except.bind, pure, Except.pure]
  | .BinaryExpr x opPos op y, s => by
    simp only [ast.Inspect, ast.Node.subnodes, foldlM_cons_except, foldlM_append_except]
    cases h : f s (.BinaryExpr x opPos op y) with
    | error e => simp [stepOf, h, bind, Except.bind]
    | ok r =>
      simp only [stepOf, h, bind, Except.bind, hf _ _ _ h, if_true,
        Inspect_eq_foldlM f hf x, Inspect_eq_foldlM f hf y]
  | .SelectorExpr x selPos selName, s => by
    simp only [ast.Inspect, ast.Node.subnodes, foldlM_cons_except, foldlM_append_except,
      List.foldlM_nil]
    cases h : f s (.SelectorExpr x selPos selName) with
    | error e => simp [stepOf, h, bind, Except.bind]
    | ok r =>
      simp only [stepOf, h, bind, Except.bind, hf _ _ _ h, if_true,
        Inspect_eq_foldlM f hf x]
      cases x.subnodes.foldlM (stepOf f) r.1 with
      | error e => rfl
      | ok t =>
        simp only [stepOf]
        cases f t (.Ident selPos selName) <;> rfl
  | .CallExpr fn args, s => by
    simp only [ast.Inspect, ast.Node.subnodes, foldlM_cons_except, foldlM_append_except]
    cases h : f s (.CallExpr fn args) with
    | error e => simp [stepOf, h, bind, Except.bind]
    | ok r =>
      simp only [stepOf, h, bind, Except.bind, hf _ _ _ h, if_true,
        Inspect_eq_foldlM f hf fn, InspectList_eq_foldlM f hf args]
  | .Other pos children, s => by
    simp only [ast.Inspect, ast.Node.subnodes, foldlM_cons_except]
    cases h : f s (.Other pos children) with
    | error e => simp [stepOf, h, bind, Except.bind]
    | ok r =>
      simp only [stepOf, h, bind, Except.bind, hf _ _ _ h, if_true,
        InspectList_eq_foldlM f hf children]
theorem InspectList_eq_foldlM {ε σ : Type} (f : σ → ast.Node → Except ε (σ × Bool))
    (hf : ∀ s n r, f s n = .ok r → r.2 = true) :
    ∀ (ns : List ast.Node) (s : σ),
      ast.InspectList f ns s = (ast.subnodesList ns).foldlM (stepOf f) s
  | [], s => by
    simp only [ast.InspectList, ast.subnodesList, List.foldlM_nil]
  | n :: ns, s => by
    simp only [ast.InspectList, ast.subnodesList, foldlM_append_except, bind, Except.bind,
      Inspect_eq_foldlM f hf n, InspectList_eq_foldlM f hf ns]
end

theorem visit_true (p : Package) (n : ast.Node) (r : Package × Bool)
    (h : p.visit n = .ok r) : r.2 = true := by
  have hpure : ∀ q : Package, (pure (q, true) : Except Panic (Package × Bool)) = .ok r →
      r.2 = true := by
    intro q hq
    simp only [pure, Except.pure, Except.ok.injEq] at hq
    rw [← hq]
  cases n with
  | CallExpr fn args =>
    cases fn with
    | SelectorExpr x selPos selName =>
      simp only [Package.visit] at h
      cases hp : p.processGettext { Fun := .SelectorExpr x selPos selName, Args := args }
          selName with
      | error e =>
        rw [hp] at h
        simp [bind, Except.bind] at h
      | ok q =>
        rw [hp] at h
        exact hpure q h
    | _ => exact hpure p h
  | _ => exact hpure p h

theorem inspectFiles_eq_foldlM :
    ∀ (fs : List ast.Node) (p : Package),
      Package.inspectFiles fs p = (ast.subnodesList fs).foldlM (stepOf Package.visit) p
  | [], p => by
    simp only [Package.inspectFiles, ast.subnodesList, List.foldlM_nil]
    rfl
  | f :: fs, p => by
    simp only [Package.inspectFiles, ast.subnodesList, foldlM_append_except, bind,
      Except.bind, Inspect_eq_foldlM Package.visit visit_true f, inspectFiles_eq_foldlM fs]

theorem mem_subnodesList (c f : ast.Node) :
    ∀ fs : List ast.Node, f ∈ fs → c ∈ f.subnodes → c ∈ ast.subnodesList fs
  | [], hf, _ => by simp at hf
  | g :: gs, hf, hc => by
    simp only [ast.subnodesList, List.mem_append]
    rcases List.mem_cons.mp hf with h | h
    · left; rw [← h]; exact hc
    · right; exact mem_subnodesList c f gs h hc

theorem foldlM_fails {ε σ α : Type} (g : σ → α → Except ε σ) (c : α)
    (hc : ∀ s, ∃ e, g s c = .error e) :
    ∀ (l : List α), c ∈ l → ∀ s, ∃ e, l.foldlM g s = .error e
  | [], h, _ => by simp at h
  | a :: l, h, s => by
    rw [foldlM_cons_except]
    rcases List.mem_cons.mp h with h | h
    · obtain ⟨e, he⟩ := hc s
      rw [← h, he]
      exact ⟨e, rfl⟩
    · cases g s a with
      | error e => exact ⟨e, rfl⟩
      | ok t => exact foldlM_fails g c hc l h t

theorem index_of_get? {α : Type} (xs : List α) (i : Nat) (a : α) (h : xs.get? i = some a) :
    index xs i = .ok a := by
  unfold index
  rw [h]

theorem processGettext_fails (p : Package) (x : ast.CallExpr) (fnName : GoString)
    (h : usedArgFails p fnName x.Args) :
    ∃ flt, p.processGettext x fnName = .error { fault := flt, state := p } := by
  have hne : bytes ("PGettext") ≠ bytes ("Gettext") := by decide
  rcases h with ⟨hn, a, ha, flt, hflt⟩ | ⟨hn, h⟩
  · subst hn
    refine ⟨flt, ?_⟩
    simp only [Package.processGettext, if_true, index_of_get? _ _ _ ha, Package.inState,
      hflt, bind, Except.bind]
  · subst hn
    rcases h with ⟨a, ha, flt, hflt⟩ | ⟨a, ha, flt, hflt⟩
    · refine ⟨flt, ?_⟩
      simp only [Package.processGettext, if_neg hne, if_true, index_of_get? _ _ _ ha,
        Package.inState, hflt, bind, Except.bind]
    · cases hargs : x.Args with
      | nil => simp [hargs] at ha
      | cons a0 rest =>
        rw [hargs] at ha
        cases h0 : p.evalStringValue a0 with
        | error flt0 =>
          refine ⟨flt0, ?_⟩
          simp only [Package.processGettext, if_neg hne, if_true, hargs, index_cons_zero,
            Package.inState, h0, bind, Except.bind]
        | ok v =>
          refine ⟨flt, ?_⟩
          simp only [Package.processGettext, if_neg hne, if_true, hargs, index_cons_zero,
            index_of_get? _ _ _ ha, Package.inState, h0, hflt, bind, Except.bind]

theorem usedArgFails_state (p q : Package) (fnName : GoString) (args : List ast.Node)
    (h : usedArgFails p fnName args) : usedArgFails q fnName args := by
  simpa only [usedArgFails, evalFails, evalStringValue_state q p] using h

theorem visit_fails (p q : Package) (recv : ast.Node) (selPos : token.Pos)
    (fnName : GoString) (args : List ast.Node) (h : usedArgFails p fnName args) :
    ∃ e, stepOf Package.visit q (.CallExpr (.SelectorExpr recv selPos fnName) args)
      = .error e := by
  obtain ⟨flt, hflt⟩ := processGettext_fails q
    { Fun := .SelectorExpr recv selPos fnName, Args := args } fnName
    (usedArgFails_state p q fnName args h)
  refine ⟨{ fault := flt, state := q }, stepOf_error _ _ _ _ ?_⟩
  simp only [Package.visit, hflt, bind, Except.bind]

/-- C10, as amended: for every call named `Gettext` or `PGettext` one of whose used
arguments fails to evaluate (as an identifier does), `processGettext` panics with the
package, and so the message list, as it was before the call; and `GenPotFile` over
any tree that contains such a call with a selector as callee panics and returns no
catalog. -/
theorem processGettext_unevaluable (p : Package) (x : ast.CallExpr) (fnName : GoString)
    (h : usedArgFails p fnName x.Args) :
    (∃ flt, p.processGettext x fnName = .error { fault := flt, state := p }) ∧
      ∀ (q : Package) (now : time.Time) (recv : ast.Node) (selPos : token.Pos)
        (file : ast.Node), file ∈ q.astFiles →
        .CallExpr (.SelectorExpr recv selPos fnName) x.Args ∈ file.subnodes →
        ∃ e, q.GenPotFile now = .error e := by
  refine ⟨processGettext_fails p x fnName h, ?_⟩
  intro q now recv selPos file hfile hcall
  have hmem := mem_subnodesList _ file q.astFiles hfile hcall
  obtain ⟨e, he⟩ := foldlM_fails (stepOf Package.visit) _
    (fun s => visit_fails p s recv selPos fnName x.Args h) _ hmem
    { q with potFile := some { MimeHeader := q.newHeader now, Messages := [] } }
  refine ⟨e, ?_⟩
  simp only [Package.GenPotFile, inspectFiles_eq_foldlM, he, bind, Except.bind]

/-- C10, witness: `tr.Gettext(someVariable)` panics and leaves the package as it was,
and `GenPotFile` panics on the file that contains the call after a call it can
process. -/
theorem processGettext_unevaluable_witness :
    usedArgFails demoPackage (bytes ("Gettext")) [.Ident 92 (bytes ("someVariable"))] ∧
      (∃ flt, demoPackage.processGettext
          (selectorCall 81 (bytes ("tr")) (bytes ("Gettext"))
            [.Ident 92 (bytes ("someVariable"))])
          (bytes ("Gettext")) = .error { fault := flt, state := demoPackage }) ∧
      ∃ e, demoScanPackage.GenPotFile demoTime = .error e :=
  have h : usedArgFails demoPackage (bytes ("Gettext"))
      [.Ident 92 (bytes ("someVariable"))] :=
    Or.inl ⟨rfl, _, rfl, .unknownType, rfl⟩
  ⟨h,
    (processGettext_unevaluable demoPackage
      (selectorCall 81 (bytes ("tr")) (bytes ("Gettext"))
        [.Ident 92 (bytes ("someVariable"))]) (bytes ("Gettext")) h).1,
    (processGettext_unevaluable demoPackage
      (selectorCall 81 (bytes ("tr")) (bytes ("Gettext"))
        [.Ident 92 (bytes ("someVariable"))]) (bytes ("Gettext")) h).2
      demoScanPackage demoTime (.Ident 81 (bytes ("tr"))) 84 demoFile
      (List.Mem.head _)
      (by simp [demoFile, ast.Node.subnodes, ast.subnodesList, selectorCall])⟩

/-- C10, counterexample: the argument of `tr.Gettext(a - b)` is neither a literal nor
a concatenation of literals, and `processGettext` does not panic: it appends an
entry whose id is empty. -/
theorem processGettext_Gettext_subtraction :
    (messagesOf (demoPackage.processGettext
        (selectorCall 85 (bytes ("tr")) (bytes ("Gettext"))
          [.BinaryExpr (.Ident 96 (bytes ("a"))) 98 .SUB (.Ident 100 (bytes ("b")))])
        (bytes ("Gettext")))).map (List.map (fun m => m.MsgId)) = some [[]] := by
  decide

/-! ## The scan as a list of entries -/

theorem entryOf_withCatalog (p : Package) (f : po.File) (n : ast.Node) :
    (p.withCatalog f).entryOf n = p.entryOf n := by
  cases n with
  | CallExpr fn args =>
    cases fn with
    | SelectorExpr x selPos name =>
      simp only [Package.entryOf, evalStringValue_state (p.withCatalog f) p]
      rfl
    | _ => rfl
  | _ => rfl

theorem stepOf_visit (p : Package) (f : po.File) (n : ast.Node) :
    stepOf Package.visit (p.withCatalog f) n =
      match p.entryOf n with
      | .error e => .error { fault := e, state := p.withCatalog f }
      | .ok none => .ok (p.withCatalog f)
      | .ok (some m) => .ok (p.withCatalog (f.push m)) := by
  have hne : bytes ("PGettext") ≠ bytes ("Gettext") := by decide
  cases n with
  | CallExpr fn args =>
    cases fn with
    | SelectorExpr x selPos name =>
      simp only [stepOf, Package.visit, Package.processGettext, Package.entryOf,
        evalStringValue_state (p.withCatalog f) p]
      by_cases h1 : name = bytes ("Gettext")
      · subst h1
        simp only [if_true]
        cases h0 : index args 0 with
        | error e => rfl
        | ok a0 =>
          cases hv : p.evalStringValue a0 with
          | error e => simp only [Package.inState, hv, bind, Except.bind]
          | ok v =>
            simp only [Package.inState, hv, bind, Except.bind]
            rfl
      · simp only [if_neg h1]
        by_cases h2 : name = bytes ("PGettext")
        · subst h2
          simp only [if_true]
          cases h0 : index args 0 with
          | error e => rfl
          | ok a0 =>
            cases hv : p.evalStringValue a0 with
            | error e => simp only [Package.inState, hv, bind, Except.bind]
            | ok v =>
              cases h1' : index args 1 with
              | error e => simp only [Package.inState, hv, bind, Except.bind]
              | ok a1 =>
                cases hw : p.evalStringValue a1 with
                | error e => simp only [Package.inState, hv, hw, bind, Except.bind]
                | ok w =>
                  simp only [Package.inState, hv, hw, bind, Except.bind]
                  rfl
        · simp only [if_neg h2]
          split_ifs <;> rfl
    | _ => rfl
  | _ => rfl

theorem push_messages (f : po.File) (m : po.Message) (ms : List po.Message) :
    ({ (f.push m) with Messages := (f.push m).Messages ++ ms } : po.File)
      = { f with Messages := f.Messages ++ (m :: ms) } := by
  simp [po.File.push]

theorem foldlM_visit_ok (p : Package) :
    ∀ (ns : List ast.Node) (ms : List po.Message) (f : po.File),
      p.entriesOf ns = .ok ms →
      ns.foldlM (stepOf Package.visit) (p.withCatalog f)
        = .ok (p.withCatalog { f with Messages := f.Messages ++ ms })
  | [], ms, f, h => by
    simp only [Package.entriesOf, Except.ok.injEq] at h
    subst h
    simp only [List.foldlM_nil, List.append_nil]
    rfl
  | n :: ns, ms, f, h => by
    rw [foldlM_cons_except, stepOf_visit]
    simp only [Package.entriesOf] at h
    cases hn : p.entryOf n with
    | error e => simp [hn] at h
    | ok o =>
      cases hrest : p.entriesOf ns with
      | error e => simp [hn, hrest] at h
      | ok rest =>
        simp only [hn, hrest, Except.ok.injEq] at h
        subst h
        cases o with
        | none =>
          simpa [Except.bind] using foldlM_visit_ok p ns rest f hrest
        | some m =>
          have := foldlM_visit_ok p ns rest (f.push m) hrest
          rw [push_messages] at this
          simpa [Except.bind] using this

theorem foldlM_visit_error (p : Package) :
    ∀ (ns : List ast.Node) (e : Fault) (f : po.File),
      p.entriesOf ns = .error e →
      ∃ st, ns.foldlM (stepOf Package.visit) (p.withCatalog f)
        = .error { fault := e, state := st }
  | [], e, f, h => by simp [Package.entriesOf] at h
  | n :: ns, e, f, h => by
    rw [foldlM_cons_except, stepOf_visit]
    simp only [Package.entriesOf] at h
    cases hn : p.entryOf n with
    | error e' =>
      simp only [hn, Except.error.injEq] at h
      subst h
      exact ⟨_, rfl⟩
    | ok o =>
      cases hrest : p.entriesOf ns with
      | ok rest => simp [hn, hrest] at h
      | error e' =>
        simp only [hn, hrest, Except.error.injEq] at h
        subst h
        cases o with
        | none =>
          obtain ⟨st, hst⟩ := foldlM_visit_error p ns e' f hrest
          exact ⟨st, by simpa [Except.bind] using hst⟩
        | some m =>
          obtain ⟨st, hst⟩ := foldlM_visit_error p ns e' (f.push m) hrest
          exact ⟨st, by simpa [Except.bind] using hst⟩

theorem GenPotFile_of_entries (p : Package) (now : time.Time) (ms : List po.Message)
    (h : p.entriesOf (ast.subnodesList p.astFiles) = .ok ms) :
    p.GenPotFile now
      = .ok (some { MimeHeader := p.newHeader now, Messages := ms },
          p.withCatalog { MimeHeader := p.newHeader now, Messages := ms }) := by
  have hfold := foldlM_visit_ok p _ ms { MimeHeader := p.newHeader now, Messages := [] } h
  simp only [List.nil_append] at hfold
  have hstart : ({ p with potFile := some { MimeHeader := p.newHeader now, Messages := [] } }
      : Package) = p.withCatalog { MimeHeader := p.newHeader now, Messages := [] } := rfl
  simp only [Package.GenPotFile, inspectFiles_eq_foldlM, hstart]
  rw [hfold]
  rfl

theorem GenPotFile_of_entries_error (p : Package) (now : time.Time) (e : Fault)
    (h : p.entriesOf (ast.subnodesList p.astFiles) = .error e) :
    ∃ st, p.GenPotFile now = .error { fault := e, state := st } := by
  obtain ⟨st, hst⟩ :=
    foldlM_visit_error p _ e { MimeHeader := p.newHeader now, Messages := [] } h
  refine ⟨st, ?_⟩
  have hstart : ({ p with potFile := some { MimeHeader := p.newHeader now, Messages := [] } }
      : Package) = p.withCatalog { MimeHeader := p.newHeader now, Messages := [] } := rfl
  simp only [Package.GenPotFile, inspectFiles_eq_foldlM, hstart]
  rw [hst]
  rfl

theorem GenPotFile_ok (p : Package) (now : time.Time) (r : Option po.File) (p' : Package)
    (h : p.GenPotFile now = .ok (r, p')) :
    ∃ ms, p.entriesOf (ast.subnodesList p.astFiles) = .ok ms ∧
      r = some { MimeHeader := p.newHeader now, Messages := ms } ∧
      p' = p.withCatalog { MimeHeader := p.newHeader now, Messages := ms } := by
  cases hent : p.entriesOf (ast.subnodesList p.astFiles) with
  | error e =>
    obtain ⟨st, hst⟩ := GenPotFile_of_entries_error p now e hent
    rw [hst] at h
    cases h
  | ok ms =>
    rw [GenPotFile_of_entries p now ms hent] at h
    simp only [Except.ok.injEq, Prod.mk.injEq] at h
    exact ⟨ms, rfl, h.1.symm, h.2.symm⟩

theorem entryOf_not_call (p : Package) (n : ast.Node) (h : isGettextCall n = false) :
    p.entryOf n = .ok none := by
  cases n with
  | CallExpr fn args =>
    cases fn with
    | SelectorExpr x selPos name =>
      simp only [isGettextCall, Bool.or_eq_false_iff, beq_eq_false_iff_ne, ne_eq] at h
      simp only [Package.entryOf, if_neg h.1, if_neg h.2]
    | _ => rfl
  | _ => rfl

theorem index_ok_get? {α : Type} (xs : List α) (i : Nat) (a : α) (h : index xs i = .ok a) :
    xs.get? i = some a := by
  unfold index at h
  cases hx : xs.get? i with
  | none =>
    rw [hx] at h
    cases h
  | some b =>
    rw [hx] at h
    cases h
    rfl

theorem entryOf_some (p : Package) (n : ast.Node) (m : po.Message)
    (h : p.entryOf n = .ok (some m)) :
    ∃ (recv : ast.Node) (selPos : token.Pos) (name : GoString) (args : List ast.Node)
      (a : ast.Node),
      n = .CallExpr (.SelectorExpr recv selPos name) args ∧
      ((name = bytes ("Gettext") ∧ args.get? 0 = some a) ∨
        (name = bytes ("PGettext") ∧ args.get? 1 = some a)) ∧
      p.evalStringValue a = .ok m.MsgId := by
  cases n with
  | CallExpr fn args =>
    cases fn with
    | SelectorExpr x selPos name =>
      simp only [Package.entryOf] at h
      by_cases h1 : name = bytes ("Gettext")
      · simp only [if_pos h1] at h
        cases h0 : index args 0 with
        | error e => simp [h0] at h
        | ok a0 =>
          cases hv : p.evalStringValue a0 with
          | error e => simp [h0, hv] at h
          | ok v =>
            simp only [h0, hv, Except.ok.injEq, Option.some.injEq] at h
            refine ⟨x, selPos, name, args, a0, rfl, Or.inl ⟨h1, index_ok_get? _ _ _ h0⟩, ?_⟩
            rw [← h, hv]
            rfl
      · simp only [if_neg h1] at h
        by_cases h2 : name = bytes ("PGettext")
        · simp only [if_pos h2] at h
          cases h0 : index args 0 with
          | error e => simp [h0] at h
          | ok a0 =>
            cases hv : p.evalStringValue a0 with
            | error e => simp [h0, hv] at h
            | ok v =>
              cases h1' : index args 1 with
              | error e => simp [h0, hv, h1'] at h
              | ok a1 =>
                cases hw : p.evalStringValue a1 with
                | error e => simp [h0, hv, h1', hw] at h
                | ok w =>
                  simp only [h0, hv, h1', hw, Except.ok.injEq, Option.some.injEq] at h
                  refine ⟨x, selPos, name, args, a1, rfl,
                    Or.inr ⟨h2, index_ok_get? _ _ _ h1'⟩, ?_⟩
                  rw [← h, hw]
                  rfl
        · simp [if_neg h2] at h
    | _ => simp [Package.entryOf] at h
  | _ => simp [Package.entryOf] at h

theorem entryOf_call_ok (p : Package) (n : ast.Node) (o : Option po.Message)
    (hc : isGettextCall n = true) (h : p.entryOf n = .ok o) : ∃ m, o = some m := by
  cases n with
  | CallExpr fn args =>
    cases fn with
    | SelectorExpr x selPos name =>
      simp only [isGettextCall, Bool.or_eq_true, beq_iff_eq] at hc
      simp only [Package.entryOf] at h
      by_cases h1 : name = bytes ("Gettext")
      · simp only [if_pos h1] at h
        cases h0 : index args 0 with
        | error e => simp [h0] at h
        | ok a0 =>
          cases hv : p.evalStringValue a0 with
          | error e => simp [h0, hv] at h
          | ok v =>
            simp only [h0, hv, Except.ok.injEq] at h
            exact ⟨_, h.symm⟩
      · have h2 : name = bytes ("PGettext") := hc.resolve_left h1
        simp only [if_neg h1, if_pos h2] at h
        cases h0 : index args 0 with
        | error e => simp [h0] at h
        | ok a0 =>
          cases hv : p.evalStringValue a0 with
          | error e => simp [h0, hv] at h
          | ok v =>
            cases h1' : index args 1 with
            | error e => simp [h0, hv, h1'] at h
            | ok a1 =>
              cases hw : p.evalStringValue a1 with
              | error e => simp [h0, hv, h1', hw] at h
              | ok w =>
                simp only [h0, hv, h1', hw, Except.ok.injEq] at h
                exact ⟨_, h.symm⟩
    | _ => simp [isGettextCall] at hc
  | _ => simp [isGettextCall] at hc

theorem entriesOf_map (p : Package) :
    ∀ (ns : List ast.Node) (ms : List po.Message), p.entriesOf ns = .ok ms →
      ms.map (fun m => (Except.ok (some m) : Except Fault (Option po.Message)))
        = (ns.filter isGettextCall).map p.entryOf
  | [], ms, h => by
    simp only [Package.entriesOf, Except.ok.injEq] at h
    subst h
    rfl
  | n :: ns, ms, h => by
    simp only [Package.entriesOf] at h
    cases hn : p.entryOf n with
    | error e => simp [hn] at h
    | ok o =>
      cases hrest : p.entriesOf ns with
      | error e => simp [hn, hrest] at h
      | ok rest =>
        simp only [hn, hrest, Except.ok.injEq] at h
        subst h
        have ih := entriesOf_map p ns rest hrest
        cases hc : isGettextCall n with
        | false =>
          have hnone := entryOf_not_call p n hc
          rw [hn] at hnone
          simp only [Except.ok.injEq] at hnone
          subst hnone
          simp only [List.filter_cons, hc, Option.toList, List.nil_append]
          exact ih
        | true =>
          obtain ⟨m, hm⟩ := entryOf_call_ok p n o hc hn
          subst hm
          simp only [List.filter_cons, hc, if_true, Option.toList, List.singleton_append,
            List.map_cons, hn, ih]

theorem entriesOf_mem (p : Package) :
    ∀ (ns : List ast.Node) (ms : List po.Message), p.entriesOf ns = .ok ms →
      ∀ m ∈ ms, ∃ n ∈ ns, p.entryOf n = .ok (some m)
  | [], ms, h => by
    simp only [Package.entriesOf, Except.ok.injEq] at h
    subst h
    intro m hm
    simp at hm
  | n :: ns, ms, h => by
    simp only [Package.entriesOf] at h
    cases hn : p.entryOf n with
    | error e => simp [hn] at h
    | ok o =>
      cases hrest : p.entriesOf ns with
      | error e => simp [hn, hrest] at h
      | ok rest =>
        simp only [hn, hrest, Except.ok.injEq] at h
        subst h
        intro m hm
        rcases List.mem_append.mp hm with h1 | h1
        · cases o with
          | none => simp at h1
          | some m' =>
            have : m = m' := by simpa using h1
            subst this
            exact ⟨n, List.mem_cons_self _ _, hn⟩
        · obtain ⟨n', hn', he⟩ := entriesOf_mem p ns rest hrest m h1
          exact ⟨n', List.mem_cons_of_mem _ hn', he⟩

theorem entriesOf_withCatalog (p : Package) (f : po.File) :
    ∀ ns : List ast.Node, (p.withCatalog f).entriesOf ns = p.entriesOf ns
  | [] => rfl
  | n :: ns => by
    simp only [Package.entriesOf, entryOf_withCatalog, entriesOf_withCatalog p f ns]

theorem Format_ne_nil (t : time.Time) : t.Format ≠ [] := by
  simp [time.Time.Format]

/-! ## The catalog that `GenPotFile` returns -/

/-- C11, as amended: every entry of a catalog that `GenPotFile` returns has as its id
the text that `evalStringValue` returned for the id argument of a call in the parsed
files whose callee is a selector named `Gettext` (argument 0) or `PGettext`
(argument 1); an entry exists only where that evaluation succeeded. The id may be
empty. -/
theorem GenPotFile_msgid_source (p : Package) (now : time.Time) (r : Option po.File)
    (p' : Package) (h : p.GenPotFile now = .ok (r, p')) :
    ∃ f, r = some f ∧ ∀ m ∈ f.Messages,
      ∃ (recv : ast.Node) (selPos : token.Pos) (name : GoString) (args : List ast.Node)
        (a : ast.Node),
        .CallExpr (.SelectorExpr recv selPos name) args ∈ ast.subnodesList p.astFiles ∧
        ((name = bytes ("Gettext") ∧ args.get? 0 = some a) ∨
          (name = bytes ("PGettext") ∧ args.get? 1 = some a)) ∧
        p.evalStringValue a = .ok m.MsgId := by
  obtain ⟨ms, hms, hr, _⟩ := GenPotFile_ok p now r p' h
  refine ⟨_, hr, ?_⟩
  intro m hm
  obtain ⟨n, hn, he⟩ := entriesOf_mem p _ ms hms m hm
  obtain ⟨recv, selPos, name, args, a, hshape, harg, hval⟩ := entryOf_some p n m he
  exact ⟨recv, selPos, name, args, a, hshape ▸ hn, harg, hval⟩

/-- C11, witness: the scan of `demoNestedPackage` succeeds, and each of its three
entries has the evaluated id argument of a call of the file as its id. -/
theorem GenPotFile_msgid_source_witness :
    demoNestedPackage.GenPotFile demoTime
        = .ok (some demoNestedCatalog, demoNestedPackage.withCatalog demoNestedCatalog) ∧
      ∃ f, some demoNestedCatalog = some f ∧ ∀ m ∈ f.Messages,
        ∃ (recv : ast.Node) (selPos : token.Pos) (name : GoString) (args : List ast.Node)
          (a : ast.Node),
          .CallExpr (.SelectorExpr recv selPos name) args
            ∈ ast.subnodesList demoNestedPackage.astFiles ∧
          ((name = bytes ("Gettext") ∧ args.get? 0 = some a) ∨
            (name = bytes ("PGettext") ∧ args.get? 1 = some a)) ∧
          demoNestedPackage.evalStringValue a = .ok m.MsgId :=
  ⟨rfl, GenPotFile_msgid_source demoNestedPackage demoTime (some demoNestedCatalog)
    (demoNestedPackage.withCatalog demoNestedCatalog) rfl⟩

/-- C11, counterexample: the scan of a file that holds `tr.Gettext("")` succeeds and
returns a catalog with one entry, whose id is empty. -/
theorem GenPotFile_empty_msgid :
    (catalogOf (demoEmptyIdPackage.GenPotFile demoTime)).map
      (fun f => f.Messages.map (fun m => m.MsgId)) = some [[]] := by
  decide

/-- C13: when the scan succeeds, the message list of the returned catalog has exactly
one entry for each call, at any depth of any parsed file, whose callee is a selector
named `Gettext` or `PGettext`: the entries are the entries of these calls, in the
order of the files and of the traversal, with no entry dropped or merged and none
for any other node. -/
theorem GenPotFile_one_entry_per_call (p : Package) (now : time.Time) (r : Option po.File)
    (p' : Package) (h : p.GenPotFile now = .ok (r, p')) :
    ∃ f, r = some f ∧
      f.Messages.map (fun m => (Except.ok (some m) : Except Fault (Option po.Message)))
        = ((ast.subnodesList p.astFiles).filter isGettextCall).map p.entryOf ∧
      f.Messages.length = ((ast.subnodesList p.astFiles).filter isGettextCall).length := by
  obtain ⟨ms, hms, hr, _⟩ := GenPotFile_ok p now r p' h
  have hmap := entriesOf_map p _ ms hms
  refine ⟨_, hr, hmap, ?_⟩
  have hlen := congrArg List.length hmap
  simpa using hlen

/-- C13, witness: the file of `demoNestedPackage` holds `tr.Gettext("dup")` twice, a
bare `Gettext("bare")` and a `tr.PGettext("menu", "Open")` inside the arguments of
another call; the catalog has the three entries `dup`, `dup` and `Open`. -/
theorem GenPotFile_one_entry_per_call_witness :
    demoNestedPackage.GenPotFile demoTime
        = .ok (some demoNestedCatalog, demoNestedPackage.withCatalog demoNestedCatalog) ∧
      demoNestedCatalog.Messages.map (fun m => (m.MsgContext, m.MsgId))
        = [([], bytes ("dup")), ([], bytes ("dup")), (bytes ("menu"), bytes ("Open"))] ∧
      ∃ f, some demoNestedCatalog = some f ∧
        f.Messages.map (fun m => (Except.ok (some m) : Except Fault (Option po.Message)))
          = ((ast.subnodesList demoNestedPackage.astFiles).filter isGettextCall).map
              demoNestedPackage.entryOf ∧
        f.Messages.length
          = ((ast.subnodesList demoNestedPackage.astFiles).filter isGettextCall).length :=
  ⟨rfl, by decide,
    GenPotFile_one_entry_per_call demoNestedPackage demoTime (some demoNestedCatalog)
      (demoNestedPackage.withCatalog demoNestedCatalog) rfl⟩

/-- C15: the header of a catalog that `GenPotFile` returns carries a creation date
that is not empty and the fixed values of the project id version, the language team,
the language, the content type and the transfer encoding; and two packages of the
same import path scanned at the same reading of the clock get the same header,
whatever their files and so whatever entries follow. -/
theorem GenPotFile_header (p q : Package) (now : time.Time) (r s : Option po.File)
    (p' q' : Package) (hpq : p.pkgpath = q.pkgpath)
    (hp : p.GenPotFile now = .ok (r, p')) (hq : q.GenPotFile now = .ok (s, q')) :
    ∃ f g, r = some f ∧ s = some g ∧ f.MimeHeader = g.MimeHeader ∧
      f.MimeHeader.POTCreationDate = now.Format ∧ f.MimeHeader.POTCreationDate ≠ [] ∧
      f.MimeHeader.ProjectIdVersion = bytes ("1.0") ∧
      f.MimeHeader.LanguageTeam = bytes ("golang-china") ∧
      f.MimeHeader.Language = bytes ("zh_CN") ∧
      f.MimeHeader.ContentType = bytes ("Content-Type: text/plain; charset=UTF-8") ∧
      f.MimeHeader.ContentTransferEncoding = bytes ("Content-Transfer-Encoding: 8bit") := by
  obtain ⟨ms, _, hr, _⟩ := GenPotFile_ok p now r p' hp
  obtain ⟨ns, _, hs, _⟩ := GenPotFile_ok q now s q' hq
  refine ⟨_, _, hr, hs, ?_, rfl, Format_ne_nil now, rfl, rfl, rfl, rfl, rfl⟩
  simp only [Package.newHeader, hpq]

/-- C15, witness: the package without files and the package with three entries get
the same header, dated `2020-03-07 09:05+0800`. -/
theorem GenPotFile_header_witness :
    demoNestedCatalog.MimeHeader.POTCreationDate = bytes ("2020-03-07 09:05+0800") ∧
      ∃ f g, some demoNestedCatalog = some f ∧
        some ({ MimeHeader := demoPackage.newHeader demoTime, Messages := [] } : po.File)
          = some g ∧
        f.MimeHeader = g.MimeHeader ∧
        f.MimeHeader.POTCreationDate = demoTime.Format ∧
        f.MimeHeader.POTCreationDate ≠ [] ∧
        f.MimeHeader.ProjectIdVersion = bytes ("1.0") ∧
        f.MimeHeader.LanguageTeam = bytes ("golang-china") ∧
        f.MimeHeader.Language = bytes ("zh_CN") ∧
        f.MimeHeader.ContentType = bytes ("Content-Type: text/plain; charset=UTF-8") ∧
        f.MimeHeader.ContentTransferEncoding
          = bytes ("Content-Transfer-Encoding: 8bit") :=
  ⟨by decide,
    GenPotFile_header demoNestedPackage demoPackage demoTime (some demoNestedCatalog)
      (some { MimeHeader := demoPackage.newHeader demoTime, Messages := [] })
      (demoNestedPackage.withCatalog demoNestedCatalog)
      (demoPackage.withCatalog { MimeHeader := demoPackage.newHeader demoTime, Messages := [] })
      rfl rfl rfl⟩

/-- C18: `GenPotFile` starts from a fresh catalog: when a run succeeds, a second run
on the package as the first run left it succeeds too, at any reading of the clock,
and returns the same message list; the entries of the first run are not kept. -/
theorem GenPotFile_twice (p : Package) (now later : time.Time) (r : Option po.File)
    (p' : Package) (h : p.GenPotFile now = .ok (r, p')) :
    ∃ f g p'', r = some f ∧ p'.GenPotFile later = .ok (some g, p'') ∧
      g.Messages = f.Messages := by
  obtain ⟨ms, hms, hr, hp'⟩ := GenPotFile_ok p now r p' h
  have hfiles : p'.astFiles = p.astFiles := by rw [hp']; rfl
  have hent : p'.entriesOf (ast.subnodesList p'.astFiles) = .ok ms := by
    rw [hfiles, hp', entriesOf_withCatalog]
    exact hms
  exact ⟨_, _, _, hr, GenPotFile_of_entries p' later ms hent, rfl⟩

/-- C18, witness: a second run on `demoNestedPackage`, one minute later, returns the
three entries of the first run and not six. -/
theorem GenPotFile_twice_witness :
    demoNestedPackage.GenPotFile demoTime
        = .ok (some demoNestedCatalog, demoNestedPackage.withCatalog demoNestedCatalog) ∧
      (catalogOf ((demoNestedPackage.withCatalog demoNestedCatalog).GenPotFile
        { demoTime with Minute := 6 })).map (fun g => g.Messages.length) = some 3 ∧
      ∃ f g p'', some demoNestedCatalog = some f ∧
        (demoNestedPackage.withCatalog demoNestedCatalog).GenPotFile
          { demoTime with Minute := 6 } = .ok (some g, p'') ∧
        g.Messages = f.Messages :=
  ⟨rfl, by decide,
    GenPotFile_twice demoNestedPackage demoTime { demoTime with Minute := 6 }
      (some demoNestedCatalog) (demoNestedPackage.withCatalog demoNestedCatalog) rfl⟩

/-! ## What `processGettext` reads -/

theorem appendMessage_ok (p p' : Package) (m : po.Message)
    (h : p.appendMessage m = .ok p') :
    ∃ f, p.potFile = some f ∧ p'.potFile = some (f.push m) := by
  unfold Package.appendMessage at h
  cases hf : p.potFile with
  | none =>
    rw [hf] at h
    cases h
  | some f =>
    rw [hf] at h
    cases h
    exact ⟨f, rfl, rfl⟩

theorem processGettext_ok (p p' : Package) (x : ast.CallExpr) (fnName : GoString)
    (hname : fnName = bytes ("Gettext") ∨ fnName = bytes ("PGettext"))
    (h : p.processGettext x fnName = .ok p') :
    ∃ msgctxt msgid,
      p.appendMessage (p.newMessage (p.fset.Position x.Pos) msgctxt msgid) = .ok p' := by
  have hne : bytes ("PGettext") ≠ bytes ("Gettext") := by decide
  rcases hname with hn | hn
  · subst hn
    simp only [Package.processGettext, if_true] at h
    cases h0 : index x.Args 0 with
    | error e => simp [h0, Package.inState, bind, Except.bind] at h
    | ok a0 =>
      cases hv : p.evalStringValue a0 with
      | error e => simp [h0, hv, Package.inState, bind, Except.bind] at h
      | ok v =>
        simp only [h0, hv, Package.inState, bind, Except.bind] at h
        exact ⟨[], v, h⟩
  · subst hn
    simp only [Package.processGettext, if_neg hne, if_true] at h
    cases h0 : index x.Args 0 with
    | error e => simp [h0, Package.inState, bind, Except.bind] at h
    | ok a0 =>
      cases hv : p.evalStringValue a0 with
      | error e => simp [h0, hv, Package.inState, bind, Except.bind] at h
      | ok v =>
        cases h1 : index x.Args 1 with
        | error e => simp [h0, hv, h1, Package.inState, bind, Except.bind] at h
        | ok a1 =>
          cases hw : p.evalStringValue a1 with
          | error e => simp [h0, hv, h1, hw, Package.inState, bind, Except.bind] at h
          | ok w =>
            simp only [h0, hv, h1, hw, Package.inState, bind, Except.bind] at h
            exact ⟨v, w, h⟩

/-- C12, as amended: every entry that `processGettext` appends, for `Gettext` and for
`PGettext` alike, carries exactly one reference file, which is the import path of
the package, a slash, and the base name of the file of the call; exactly one
reference line, the line of the start of the call; and the flag list `go-format`. -/
theorem processGettext_reference (p p' : Package) (x : ast.CallExpr) (fnName : GoString)
    (hname : fnName = bytes ("Gettext") ∨ fnName = bytes ("PGettext"))
    (h : p.processGettext x fnName = .ok p') :
    ∃ f m, p.potFile = some f ∧ p'.potFile = some (f.push m) ∧
      m.Comment.ReferenceFile
        = [p.pkgpath ++ bytes ("/") ++ filepath.Base (p.fset.Position x.Pos).Filename] ∧
      m.Comment.ReferenceLine = [((p.fset.Position x.Pos).Line : Int)] ∧
      m.Comment.Flags = [bytes ("go-format")] := by
  obtain ⟨msgctxt, msgid, happ⟩ := processGettext_ok p p' x fnName hname h
  obtain ⟨f, hf, hf'⟩ := appendMessage_ok p p' _ happ
  exact ⟨f, _, hf, hf', rfl, rfl, rfl⟩

/-- C12, witness: the entry of `tr.PGettext("ctx", "msg")` at position 85 refers to
`example.com/demo/main.go`, line 3. -/
theorem processGettext_reference_witness :
    ∃ f m, demoPackage.potFile = some f ∧
      (demoPackage.withCatalog
        (po.File.push {} (demoPackage.newMessage (demoPackage.fset.Position 85)
          (bytes ("ctx")) (bytes ("msg"))))).potFile = some (f.push m) ∧
      m.Comment.ReferenceFile
        = [demoPackage.pkgpath ++ bytes ("/") ++ filepath.Base
            (demoPackage.fset.Position (selectorCall 85 (bytes ("tr")) (bytes ("PGettext"))
              [stringLit 97 (bytes ("ctx")), stringLit 104 (bytes ("msg"))]).Pos).Filename] ∧
      m.Comment.ReferenceLine
        = [((demoPackage.fset.Position (selectorCall 85 (bytes ("tr")) (bytes ("PGettext"))
              [stringLit 97 (bytes ("ctx")), stringLit 104 (bytes ("msg"))]).Pos).Line : Int)] ∧
      m.Comment.Flags = [bytes ("go-format")] :=
  processGettext_reference demoPackage
    (demoPackage.withCatalog
      (po.File.push {} (demoPackage.newMessage (demoPackage.fset.Position 85)
        (bytes ("ctx")) (bytes ("msg")))))
    (selectorCall 85 (bytes ("tr")) (bytes ("PGettext"))
      [stringLit 97 (bytes ("ctx")), stringLit 104 (bytes ("msg"))])
    (bytes ("PGettext")) (Or.inr rfl) rfl

/-- C12, counterexample: for `tr.Gettext("hello")` in the package `example.com/demo`,
file `/src/demo/main.go`, the reference file is `example.com/demo/main.go`, which is
not the import path followed by the base name, `example.com/demomain.go`. -/
theorem processGettext_reference_slash :
    (messagesOf (demoPackage.processGettext
        (selectorCall 85 (bytes ("tr")) (bytes ("Gettext")) [stringLit 96 (bytes ("hello"))])
        (bytes ("Gettext")))).map (List.map (fun m => m.Comment.ReferenceFile))
        = some [[bytes ("example.com/demo/main.go")]] ∧
      demoPackage.pkgpath ++ filepath.Base (demoPackage.fset.Position 85).Filename
        = bytes ("example.com/demomain.go") ∧
      bytes ("example.com/demo/main.go") ≠ bytes ("example.com/demomain.go") := by
  decide

/-- C14: the callback gives the same result, be it an entry, a panic or nothing, on
two calls `X.Name(args)` and `Y.Name(args)` that start at the same position and
differ only in the receiver, and so does `processGettext`. -/
theorem visit_receiver (p : Package) (X Y : ast.Node) (selPosX selPosY : token.Pos)
    (name : GoString) (args : List ast.Node) (hpos : X.Pos = Y.Pos) :
    p.visit (.CallExpr (.SelectorExpr X selPosX name) args)
        = p.visit (.CallExpr (.SelectorExpr Y selPosY name) args) ∧
      p.processGettext { Fun := .SelectorExpr X selPosX name, Args := args } name
        = p.processGettext { Fun := .SelectorExpr Y selPosY name, Args := args } name := by
  have h : p.processGettext { Fun := .SelectorExpr X selPosX name, Args := args } name
      = p.processGettext { Fun := .SelectorExpr Y selPosY name, Args := args } name := by
    simp only [Package.processGettext, ast.CallExpr.Pos, ast.Node.Pos, hpos]
  exact ⟨by simp only [Package.visit, h], h⟩

/-- C14, witness: `tr.Gettext("hello")` and `app.i18n.Gettext("hello")`, both starting
at position 85. -/
theorem visit_receiver_witness :
    demoPackage.visit
        (.CallExpr (.SelectorExpr (.Ident 85 (bytes ("tr"))) 88 (bytes ("Gettext")))
          [stringLit 96 (bytes ("hello"))])
        = demoPackage.visit
          (.CallExpr
            (.SelectorExpr (.SelectorExpr (.Ident 85 (bytes ("app"))) 89 (bytes ("i18n")))
              94 (bytes ("Gettext")))
            [stringLit 96 (bytes ("hello"))]) ∧
      demoPackage.processGettext
        { Fun := .SelectorExpr (.Ident 85 (bytes ("tr"))) 88 (bytes ("Gettext")),
          Args := [stringLit 96 (bytes ("hello"))] } (bytes ("Gettext"))
        = demoPackage.processGettext
          { Fun := .SelectorExpr
              (.SelectorExpr (.Ident 85 (bytes ("app"))) 89 (bytes ("i18n")))
              94 (bytes ("Gettext")),
            Args := [stringLit 96 (bytes ("hello"))] } (bytes ("Gettext")) :=
  visit_receiver demoPackage (.Ident 85 (bytes ("tr")))
    (.SelectorExpr (.Ident 85 (bytes ("app"))) 89 (bytes ("i18n"))) 88 94
    (bytes ("Gettext")) [stringLit 96 (bytes ("hello"))] rfl

theorem evalStringValue_add_nil_left (p : Package) (x y : ast.Node) (opPos : token.Pos)
    (r : GoString) (hx : p.evalStringValue x = .ok []) (hy : p.evalStringValue y = .ok r) :
    p.evalStringValue (.BinaryExpr x opPos .ADD y) = .error .sliceBounds := by
  simp only [Package.evalStringValue, ne_eq, not_true_eq_false, if_false, hx, hy, bind,
    Except.bind, slice_init_nil]

theorem evalStringValue_add_nil_right (p : Package) (x y : ast.Node) (opPos : token.Pos)
    (l : GoString) (hx : p.evalStringValue x = .ok l) (hy : p.evalStringValue y = .ok [])
    (hl : l ≠ []) :
    p.evalStringValue (.BinaryExpr x opPos .ADD y) = .error .sliceBounds := by
  simp only [Package.evalStringValue, ne_eq, not_true_eq_false, if_false, hx, hy, bind,
    Except.bind, slice_init l hl, slice_tail_nil]

theorem evalStringValue_add_cons (p : Package) (x y : ast.Node) (opPos : token.Pos)
    (l r : GoString) (hx : p.evalStringValue x = .ok l) (hy : p.evalStringValue y = .ok r)
    (hl : l ≠ []) (hr : r ≠ []) :
    p.evalStringValue (.BinaryExpr x opPos .ADD y) = .ok (l.dropLast ++ r.tail) := by
  simp only [Package.evalStringValue, ne_eq, not_true_eq_false, if_false, hx, hy, bind,
    Except.bind, slice_init l hl, slice_tail r hr]

/-- C16: when both operands of a `+` expression evaluate, to `l` and to `r`, the
expression panics exactly when `l` or `r` is empty, and the panic is then slice
bounds out of range; when neither is empty the expression evaluates. -/
theorem evalStringValue_add_panics_iff (p : Package) (x y : ast.Node) (opPos : token.Pos)
    (l r : GoString) (hx : p.evalStringValue x = .ok l) (hy : p.evalStringValue y = .ok r) :
    ((∃ flt, p.evalStringValue (.BinaryExpr x opPos .ADD y) = .error flt) ↔
        (l = [] ∨ r = [])) ∧
      (p.evalStringValue (.BinaryExpr x opPos .ADD y) = .error .sliceBounds ↔
        (l = [] ∨ r = [])) ∧
      ((∃ v, p.evalStringValue (.BinaryExpr x opPos .ADD y) = .ok v) ↔
        (l ≠ [] ∧ r ≠ [])) := by
  by_cases hl : l = []
  · subst hl
    have h := evalStringValue_add_nil_left p x y opPos r hx hy
    refine ⟨⟨fun _ => Or.inl rfl, fun _ => ⟨_, h⟩⟩, ⟨fun _ => Or.inl rfl, fun _ => h⟩, ?_⟩
    constructor
    · rintro ⟨v, hv⟩
      rw [h] at hv
      cases hv
    · rintro ⟨h1, _⟩
      exact absurd rfl h1
  · by_cases hr : r = []
    · subst hr
      have h := evalStringValue_add_nil_right p x y opPos l hx hy hl
      refine ⟨⟨fun _ => Or.inr rfl, fun _ => ⟨_, h⟩⟩, ⟨fun _ => Or.inr rfl, fun _ => h⟩, ?_⟩
      constructor
      · rintro ⟨v, hv⟩
        rw [h] at hv
        cases hv
      · rintro ⟨_, h2⟩
        exact absurd rfl h2
    · have h := evalStringValue_add_cons p x y opPos l r hx hy hl hr
      refine ⟨⟨?_, ?_⟩, ⟨?_, ?_⟩, ⟨fun _ => ⟨hl, hr⟩, fun _ => ⟨_, h⟩⟩⟩
      · rintro ⟨flt, hflt⟩
        rw [h] at hflt
        cases hflt
      · rintro (h1 | h1)
        · exact absurd h1 hl
        · exact absurd h1 hr
      · intro hflt
        rw [h] at hflt
        cases hflt
      · rintro (h1 | h1)
        · exact absurd h1 hl
        · exact absurd h1 hr

/-- C16, witness: `"" + "x"`, `a - b + "x"` (the sum whose left operand is `a - b`)
and `"a" + "b" + "c"` (the sum whose left operand is `"a" + "b"`) panic with slice
bounds out of range, each because its left operand evaluates to the empty string. -/
theorem evalStringValue_add_panics_iff_witness :
    demoPackage.evalStringValue
        (.BinaryExpr (stringLit 1 (bytes (""))) 4 .ADD (stringLit 6 (bytes ("x"))))
        = .error .sliceBounds ∧
      demoPackage.evalStringValue
        (.BinaryExpr (.BinaryExpr (.Ident 2 (bytes ("a"))) 4 .SUB (.Ident 6 (bytes ("b"))))
          9 .ADD (stringLit 11 (bytes ("x"))))
        = .error .sliceBounds ∧
      demoPackage.evalStringValue
        (.BinaryExpr
          (.BinaryExpr (stringLit 1 (bytes ("a"))) 5 .ADD (stringLit 7 (bytes ("b"))))
          11 .ADD (stringLit 13 (bytes ("c"))))
        = .error .sliceBounds :=
  ⟨(evalStringValue_add_panics_iff demoPackage (stringLit 1 (bytes (""))) (stringLit 6 (bytes ("x")))
      4 [] (bytes ("x")) (by decide) (by decide)).2.1.mpr (Or.inl rfl),
    (evalStringValue_add_panics_iff demoPackage
      (.BinaryExpr (.Ident 2 (bytes ("a"))) 4 .SUB (.Ident 6 (bytes ("b"))))
      (stringLit 11 (bytes ("x"))) 9 [] (bytes ("x")) (by decide) (by decide)).2.1.mpr
      (Or.inl rfl),
    (evalStringValue_add_panics_iff demoPackage
      (.BinaryExpr (stringLit 1 (bytes ("a"))) 5 .ADD (stringLit 7 (bytes ("b"))))
      (stringLit 13 (bytes ("c"))) 11 [] (bytes ("c")) (by decide) (by decide)).2.1.mpr
      (Or.inl rfl)⟩

theorem evalStringValue_fault (p : Package) :
    ∀ (e : ast.Node) (flt : Fault), p.evalStringValue e = .error flt →
      flt = .unknownType ∨ flt = .sliceBounds
  | .BinaryExpr x _ op y, flt, h => by
    simp only [Package.evalStringValue] at h
    by_cases hop : op = token.Token.ADD
    · simp only [hop, ne_eq, not_true_eq_false, if_false] at h
      cases hx : p.evalStringValue x with
      | error e =>
        simp only [hx, bind, Except.bind, Except.error.injEq] at h
        exact h ▸ evalStringValue_fault p x e hx
      | ok l =>
        cases hy : p.evalStringValue y with
        | error e =>
          simp only [hx, hy, bind, Except.bind, Except.error.injEq] at h
          exact h ▸ evalStringValue_fault p y e hy
        | ok r =>
          simp only [hx, hy, bind, Except.bind] at h
          unfold slice at h
          split_ifs at h <;> simp at h <;> exact Or.inr h.symm
    · simp [hop] at h
  | .BasicLit _ _ _, flt, h => by simp [Package.evalStringValue] at h
  | .Ident _ _, flt, h => by
    simp only [Package.evalStringValue, Except.error.injEq] at h
    exact Or.inl h.symm
  | .SelectorExpr _ _ _, flt, h => by
    simp only [Package.evalStringValue, Except.error.injEq] at h
    exact Or.inl h.symm
  | .CallExpr _ _, flt, h => by
    simp only [Package.evalStringValue, Except.error.injEq] at h
    exact Or.inl h.symm
  | .Other _ _, flt, h => by
    simp only [Package.evalStringValue, Except.error.injEq] at h
    exact Or.inl h.symm

theorem index_nil {α : Type} (i : Nat) :
    index ([] : List α) i = .error .indexOutOfRange := by
  simp [index]

theorem index_singleton_one {α : Type} (a : α) :
    index [a] 1 = .error .indexOutOfRange := rfl

theorem faultOf_appendMessage (p : Package) (m : po.Message) :
    faultOf (p.appendMessage m) ≠ some .indexOutOfRange := by
  unfold Package.appendMessage
  cases p.potFile <;> simp [faultOf]

theorem faultOf_Gettext (p : Package) (x : ast.CallExpr) :
    faultOf (p.processGettext x (bytes ("Gettext"))) = some .indexOutOfRange ↔ x.Args = [] := by
  cases hargs : x.Args with
  | nil =>
    simp only [Package.processGettext, if_true, hargs, index_nil, Package.inState, bind,
      Except.bind, faultOf]
  | cons a0 rest =>
    simp only [Package.processGettext, if_true, hargs, index_cons_zero, Package.inState,
      bind, Except.bind]
    cases hv : p.evalStringValue a0 with
    | error e =>
      have := evalStringValue_fault p a0 e hv
      rcases this with h | h <;> simp [faultOf, h]
    | ok v =>
      simp only [List.cons_ne_nil, iff_false]
      exact faultOf_appendMessage p _

theorem faultOf_PGettext (p : Package) (x : ast.CallExpr) :
    faultOf (p.processGettext x (bytes ("PGettext"))) = some .indexOutOfRange ↔
      (x.Args = [] ∨ ∃ a v, x.Args = [a] ∧ p.evalStringValue a = .ok v) := by
  have hne : bytes ("PGettext") ≠ bytes ("Gettext") := by decide
  cases hargs : x.Args with
  | nil =>
    simp only [Package.processGettext, if_neg hne, if_true, hargs, index_nil,
      Package.inState, bind, Except.bind, faultOf, true_or]
  | cons a0 rest =>
    simp only [Package.processGettext, if_neg hne, if_true, hargs, index_cons_zero,
      Package.inState, bind, Except.bind]
    cases hv : p.evalStringValue a0 with
    | error e =>
      have := evalStringValue_fault p a0 e hv
      have hno : ¬ ∃ a v, a0 :: rest = [a] ∧ p.evalStringValue a = Except.ok v := by
        rintro ⟨a, v, ha, hav⟩
        simp only [List.cons.injEq] at ha
        rw [← ha.1, hv] at hav
        cases hav
      have hflt : faultOf (Except.error { fault := e, state := p } : Except Panic Package)
          ≠ some .indexOutOfRange := by
        rcases this with h | h <;> simp [faultOf, h]
      constructor
      · intro h
        exact absurd h hflt
      · rintro (h | h)
        · cases h
        · exact absurd h hno
    | ok v =>
      cases rest with
      | nil =>
        simp only [index_singleton_one, faultOf, true_iff]
        exact Or.inr ⟨a0, v, rfl, hv⟩
      | cons a1 rest' =>
        simp only [index_cons_one]
        have hno : ¬ (a0 :: a1 :: rest' = [] ∨
            ∃ a v, a0 :: a1 :: rest' = [a] ∧ p.evalStringValue a = Except.ok v) := by
          rintro (h | ⟨a, v, ha, _⟩)
          · cases h
          · simp at ha
        cases hw : p.evalStringValue a1 with
        | error e =>
          have := evalStringValue_fault p a1 e hw
          rcases this with h | h <;> simp [faultOf, h]
        | ok w =>
          simp only [hno, iff_false]
          exact faultOf_appendMessage p _

/-- C17, as amended: `processGettext` reads only argument 0 of a `Gettext` call and
only arguments 0 and 1 of a `PGettext` call. It panics with index out of range
exactly when a `Gettext` call has no argument, when a `PGettext` call has no argument,
and when a `PGettext` call has one argument that evaluates (an only argument that does
not evaluate panics first). Arguments after the ones read change nothing: neither the
entry nor the panic. -/
theorem processGettext_arguments (p : Package) (x : ast.CallExpr) (fn : ast.Node)
    (a0 a1 : ast.Node) (rest rest' : List ast.Node) :
    (faultOf (p.processGettext x (bytes ("Gettext"))) = some .indexOutOfRange ↔
        x.Args = []) ∧
      (faultOf (p.processGettext x (bytes ("PGettext"))) = some .indexOutOfRange ↔
        (x.Args = [] ∨ ∃ a v, x.Args = [a] ∧ p.evalStringValue a = .ok v)) ∧
      p.processGettext { Fun := fn, Args := a0 :: rest } (bytes ("Gettext"))
        = p.processGettext { Fun := fn, Args := a0 :: rest' } (bytes ("Gettext")) ∧
      p.processGettext { Fun := fn, Args := a0 :: a1 :: rest } (bytes ("PGettext"))
        = p.processGettext { Fun := fn, Args := a0 :: a1 :: rest' } (bytes ("PGettext")) := by
  have hne : bytes ("PGettext") ≠ bytes ("Gettext") := by decide
  refine ⟨faultOf_Gettext p x, faultOf_PGettext p x, ?_, ?_⟩
  · simp only [Package.processGettext, if_true, index_cons_zero, ast.CallExpr.Pos]
  · simp only [Package.processGettext, if_neg hne, if_true, index_cons_zero, index_cons_one,
      ast.CallExpr.Pos]

/-- C17, counterexample: `tr.PGettext(someVariable)` has fewer than two arguments and
does not panic on the indexing of its arguments: it panics on the evaluation of its
only argument, on an unknown type. -/
theorem processGettext_PGettext_one_bad_argument :
    (selectorCall 85 (bytes ("tr")) (bytes ("PGettext"))
        [.Ident 97 (bytes ("someVariable"))]).Args.length = 1 ∧
      faultOf (demoPackage.processGettext
        (selectorCall 85 (bytes ("tr")) (bytes ("PGettext"))
          [.Ident 97 (bytes ("someVariable"))])
        (bytes ("PGettext"))) = some .unknownType := by
  decide

end XGettext
